import Mathlib

/-!
# GstHttpCookie and GstHttpCookieJar

A shallow embedding of `gst-libs/gst/http/gsthttpcookie.c` and
`gst-libs/gst/http/gsthttpcookiejar.c`, and the properties of the jar's
add / delete / all-cookies operations.

Conventions of the embedding.

* A C string is a `String`; a nullable `char *` is an `Option String`.
* A `GDateTime` is the UTC instant it denotes, in microseconds, as an `Int`
  (`g_date_time_difference` is the difference of the two instants).
* A `GstHttpCookie *` is a `CookiePtr`: the address together with the object
  it points to. The serial table is keyed by address, as in the source
  (`g_hash_table_new (NULL, NULL)`).
* The clock read by `date_time_is_past` is the parameter `now`.
* `guint` arithmetic is taken modulo `2 ^ 32`.
* The recursive mutex is not part of the state: every operation runs to
  completion on the calling thread, and the mutex is re-entrant. What the
  `changed` signal delivers is recorded as a list of `ChangedSignal`s; the
  handlers themselves are outside the jar.
* An operation that dereferences a NULL pointer has no result (`none`).
* Releasing memory (`g_free`, `gst_http_cookie_free`) is not modelled: add takes
  ownership of its cookie, so the caller passes a cookie that is not stored yet.
-/

namespace GstHttp

/-! ## Cookie -/

/-- The struct `_GstHttpCookie` of gsthttpcookie.h. The fields `name` and `value`
are set for all cookies; `domain` is nullable because `gst_http_cookie_new`
only warns about a NULL domain; `path` and `expires` are documented as
nullable. -/
structure GstHttpCookie where
  name : String
  value : String
  domain : Option String
  path : Option String
  expires : Option Int
  secure : Bool
  http_only : Bool
deriving DecidableEq

/-- A pointer to a heap-allocated cookie: its address and the object stored there. -/
structure CookiePtr where
  addr : Nat
  obj : GstHttpCookie
deriving DecidableEq

/-- The function `gst_http_cookie_copy`: every string is duplicated, the expiry is
shared by reference when present, the two flags are copied. -/
def gst_http_cookie_copy (cookie : GstHttpCookie) : GstHttpCookie :=
  { name := cookie.name
    value := cookie.value
    domain := cookie.domain
    path := cookie.path
    expires := if cookie.expires.isSome then cookie.expires else none
    secure := cookie.secure
    http_only := cookie.http_only }

/-- The function `gst_http_cookie_equal`: `strcmp` on name, value and path, joined by
the short-circuit `&&`. The `strcmp` on the paths is reached only when name
and value agree, and it dereferences both paths: with a NULL path there the
comparison has no result. -/
def gst_http_cookie_equal (cookie1 cookie2 : GstHttpCookie) : Option Bool :=
  if cookie1.name ≠ cookie2.name then some false
  else if cookie1.value ≠ cookie2.value then some false
  else
    match cookie1.path, cookie2.path with
    | some p1, some p2 => some (decide (p1 = p2))
    | _, _ => none

/-! ## Case-insensitive domain keys -/

/-- The loop of GLib `g_ascii_strcasecmp`, reduced to whether the result is zero:
both strings are walked together comparing the ASCII-lowercased characters, and
the result is zero when both end at the same time. -/
def ascii_strcasecmp_zero : List Char → List Char → Bool
  | [], [] => true
  | c1 :: s1, c2 :: s2 =>
      if c1.toLower = c2.toLower then ascii_strcasecmp_zero s1 s2 else false
  | _, _ => false

/-- The function `gst_http_str_case_equal`: `g_ascii_strcasecmp (string1, string2) == 0`. -/
def gst_http_str_case_equal (v1 v2 : String) : Bool :=
  ascii_strcasecmp_zero v1.data v2.data

/-- ASCII case folding of a string, used to state "equal up to ASCII case". -/
def ascii_fold (s : String) : List Char := s.data.map Char.toLower

/-! ## The domain hash -/

/-- The bytes of the characters of a C string: the UTF-8 encoding, one number below
256 for each `char`. -/
def chars_bytes (l : List Char) : List Nat :=
  l.flatMap (fun c => (String.utf8EncodeChar c).map UInt8.toNat)

/-- The bytes of a C string, without the terminating NUL. -/
def c_bytes (s : String) : List Nat := chars_bytes s.data

/-- GLib `g_ascii_toupper` on one byte: the 26 ASCII lower-case letters move to upper
case, every other byte is returned unchanged. -/
def g_ascii_toupper (b : Nat) : Nat := if 97 ≤ b ∧ b ≤ 122 then b - 32 else b

/-- Conversion of a `gchar` holding the byte `b` to `guint`: where `char` is a signed
type the bytes from 128 on are negative and are sign-extended to 32 bits. -/
def gchar_to_guint (char_signed : Bool) (b : Nat) : Nat :=
  if char_signed = true ∧ 128 ≤ b then b + (2 ^ 32 - 256) else b

/-- One round of the loop of `gst_http_str_case_hash`:
`h = (h << 5) - h + g_ascii_toupper (*p)` in `guint` arithmetic. -/
def str_case_hash_step (char_signed : Bool) (h b : Nat) : Nat :=
  (((h * 32) % 2 ^ 32 + 2 ^ 32 - h) % 2 ^ 32
    + gchar_to_guint char_signed (g_ascii_toupper b)) % 2 ^ 32

/-- The loop `for (p += 1; *p != '\0'; p++)` of `gst_http_str_case_hash`; the end of
the list stands for the terminating NUL. -/
def str_case_hash_loop (char_signed : Bool) : Nat → List Nat → Nat
  | h, [] => h
  | h, b :: p =>
      if b = 0 then h
      else str_case_hash_loop char_signed (str_case_hash_step char_signed h b) p

/-- The body of `gst_http_str_case_hash` on the bytes of the key:
`guint h = g_ascii_toupper (*p); if (h) for (...) ...; return h;`. For the empty list
`*p` is the terminating NUL and `h` is 0. -/
def str_case_hash_bytes (char_signed : Bool) : List Nat → Nat
  | [] => 0
  | b :: p =>
      let h := gchar_to_guint char_signed (g_ascii_toupper b)
      if h ≠ 0 then str_case_hash_loop char_signed h p else h

/-- The function `gst_http_str_case_hash`. Whether `char` is a signed type is fixed by the
platform and is a parameter here. -/
def gst_http_str_case_hash (char_signed : Bool) (key : String) : Nat :=
  str_case_hash_bytes char_signed (c_bytes key)

/-- The base-31 polynomial of a list of numbers, first element most significant. -/
def poly31 (l : List Nat) : Nat := l.foldl (fun acc v => acc * 31 + v) 0

/-! ## The jar state -/

/-- The `domains` table: a `GHashTable` from domain strings (compared with
`gst_http_str_case_equal`) to `GSList`s of cookie pointers, as the sequence of
its entries in iteration order. A NULL list is the empty list. GLib leaves the
position of a new entry unspecified; the model puts it last. -/
abbrev DomainTable := List (String × List CookiePtr)

/-- The `serials` table: a `GHashTable` keyed by cookie address. -/
abbrev SerialTable := List (Nat × Nat)

/-- The struct `GstHttpCookieJarPrivate`, without the mutex. -/
structure GstHttpCookieJarPrivate where
  constructed : Bool
  domains : DomainTable
  serials : SerialTable
  serial : Nat
  ongoing_operation : Bool
deriving DecidableEq

/-- One emission of the `changed` signal: author, old cookie, new cookie. -/
structure ChangedSignal where
  author : Nat
  old_cookie : Option CookiePtr
  new_cookie : Option CookiePtr
deriving DecidableEq

/-- GLib `g_hash_table_lookup` on the domains table: the value of the entry whose
key equals `key` under the table's equality function, NULL (the empty list)
when there is none. -/
def domains_lookup : DomainTable → String → List CookiePtr
  | [], _ => []
  | (k, v) :: rest, key =>
      if gst_http_str_case_equal k key then v else domains_lookup rest key

/-- GLib `g_hash_table_insert` on the domains table: when an entry with an equal
key exists its value is replaced and the old key is kept (the passed key is
freed); otherwise a new entry is made. -/
def domains_insert : DomainTable → String → List CookiePtr → DomainTable
  | [], key, v => [(key, v)]
  | (k, v0) :: rest, key, v =>
      if gst_http_str_case_equal k key then (k, v) :: rest
      else (k, v0) :: domains_insert rest key v

/-- GLib `g_hash_table_remove` on the serials table (keys compared by address). -/
def serials_remove (t : SerialTable) (key : Nat) : SerialTable :=
  t.filter (fun e => e.1 ≠ key)

/-- GLib `g_hash_table_insert` on the serials table (keys compared by address). -/
def serials_insert : SerialTable → Nat → Nat → SerialTable
  | [], key, v => [(key, v)]
  | (k, v0) :: rest, key, v =>
      if k = key then (k, v) :: rest else (k, v0) :: serials_insert rest key v

/-- The function `gst_http_cookie_jar_check_start_operation`: the returned flag and the
state after the call. -/
def gst_http_cookie_jar_check_start_operation (priv : GstHttpCookieJarPrivate) :
    Bool × GstHttpCookieJarPrivate :=
  if priv.ongoing_operation then (false, priv)
  else (true, { priv with ongoing_operation := true })

/-- The function `gst_http_cookie_jar_finish_operation`: `g_return_if_fail` leaves the
state alone when no operation is ongoing. -/
def gst_http_cookie_jar_finish_operation (priv : GstHttpCookieJarPrivate) :
    GstHttpCookieJarPrivate :=
  if priv.ongoing_operation then { priv with ongoing_operation := false } else priv

/-- The function `gst_http_cookie_jar_changed`. First the serial bookkeeping: the entry
of `old` is removed when `old` is not NULL and `old != new` (a comparison of
addresses); when `new` is not NULL the counter is incremented and `new` gets
the new value. Then the signal is emitted when the jar is constructed. -/
def gst_http_cookie_jar_changed (priv : GstHttpCookieJarPrivate) (author : Nat)
    (old new : Option CookiePtr) : GstHttpCookieJarPrivate × List ChangedSignal :=
  let serials1 : SerialTable :=
    match old with
    | some o =>
        if new.map CookiePtr.addr ≠ some o.addr then serials_remove priv.serials o.addr
        else priv.serials
    | none => priv.serials
  let serial2 : Nat :=
    match new with
    | some _ => (priv.serial + 1) % 2 ^ 32
    | none => priv.serial
  let serials2 : SerialTable :=
    match new with
    | some n => serials_insert serials1 n.addr serial2
    | none => serials1
  ({ priv with serials := serials2, serial := serial2 },
    if priv.constructed then [{ author := author, old_cookie := old, new_cookie := new }]
    else [])

/-- The function `date_time_is_past`: `g_date_time_difference (now, dt) > 0`. -/
def date_time_is_past (now dt : Int) : Bool :=
  decide (now - dt > 0)

/-- The condition `cookie->expires && date_time_is_past (cookie->expires)` of add. -/
def cookie_expired (now : Int) (cookie : GstHttpCookie) : Bool :=
  match cookie.expires with
  | some dt => date_time_is_past now dt
  | none => false

/-- The match test of the scan loop of add:
`!strcmp (cookie->name, old_cookie->name) && !g_strcmp0 (cookie->path, old_cookie->path)`
(`g_strcmp0` accepts NULL and orders it before every string). -/
def same_slot (cookie old_cookie : GstHttpCookie) : Bool :=
  decide (cookie.name = old_cookie.name) && decide (cookie.path = old_cookie.path)

/-- The scan loop of add: position and pointer of the first stored cookie that
matches the incoming one by name and path. -/
def add_scan (cookie : GstHttpCookie) : List CookiePtr → Option (Nat × CookiePtr)
  | [] => none
  | old_cookie :: rest =>
      if same_slot cookie old_cookie.obj then some (0, old_cookie)
      else (add_scan cookie rest).map (fun r => (r.1 + 1, r.2))

/-- The function `gst_http_cookie_jar_add_cookie`. The result is the state after the call
and the signals emitted; there is no result when `cookie->domain` is NULL (the
table lookup hashes the key by dereferencing it). -/
def gst_http_cookie_jar_add_cookie (priv : GstHttpCookieJarPrivate) (now : Int)
    (author : Nat) (cookie : CookiePtr) :
    Option (GstHttpCookieJarPrivate × List ChangedSignal) :=
  match gst_http_cookie_jar_check_start_operation priv with
  | (false, priv0) => some (priv0, [])
  | (true, priv0) =>
    match cookie.obj.domain with
    | none => none
    | some domain =>
      let old_cookies := domains_lookup priv0.domains domain
      match add_scan cookie.obj old_cookies with
      | some (i, old_cookie) =>
          if cookie_expired now cookie.obj then
            -- g_slist_delete_link, g_hash_table_insert, changed (old_cookie, NULL)
            let priv1 := { priv0 with
              domains := domains_insert priv0.domains domain (old_cookies.eraseIdx i) }
            let r := gst_http_cookie_jar_changed priv1 author (some old_cookie) none
            some (gst_http_cookie_jar_finish_operation r.1, r.2)
          else
            -- oc->data = cookie: the list cell is overwritten in place, so the
            -- table entry that owns the list now holds the updated list
            let priv1 := { priv0 with
              domains := domains_insert priv0.domains domain (old_cookies.set i cookie) }
            if cookie.obj.value ≠ old_cookie.obj.value then
              let r := gst_http_cookie_jar_changed priv1 author (some old_cookie) (some cookie)
              some (gst_http_cookie_jar_finish_operation r.1, r.2)
            else
              some (gst_http_cookie_jar_finish_operation priv1, [])
      | none =>
          if cookie_expired now cookie.obj then
            some (gst_http_cookie_jar_finish_operation priv0, [])
          else
            -- last->next = g_slist_append (NULL, cookie) when the list is not
            -- empty (its entry keeps its key), a fresh entry otherwise
            let priv1 := { priv0 with
              domains := domains_insert priv0.domains domain (old_cookies ++ [cookie]) }
            let r := gst_http_cookie_jar_changed priv1 author none (some cookie)
            some (gst_http_cookie_jar_finish_operation r.1, r.2)

/-- The function `gst_http_cookie_jar_all_cookies`: every entry of the table is visited
in iteration order, every cookie of its list in list order, and a copy of each
is prepended to the result. The jar state is returned as it was. -/
def gst_http_cookie_jar_all_cookies (priv : GstHttpCookieJarPrivate) :
    GstHttpCookieJarPrivate × List GstHttpCookie :=
  (priv, priv.domains.foldl
    (fun l entry => entry.2.foldl (fun l p => gst_http_cookie_copy p.obj :: l) l) [])

/-- The scan loop of delete, after the lookup: the position and pointer of the
first stored cookie with `gst_http_cookie_equal (cookie, c)`; `some none` when
the loop runs to the end; no result when a comparison has none. -/
def delete_scan (cookie : GstHttpCookie) : List CookiePtr → Option (Option (Nat × CookiePtr))
  | [] => some none
  | c :: rest =>
      match gst_http_cookie_equal cookie c.obj with
      | none => none
      | some true => some (some (0, c))
      | some false =>
          match delete_scan cookie rest with
          | none => none
          | some r => some (r.map (fun x => (x.1 + 1, x.2)))

/-- The function `gst_http_cookie_jar_delete_cookie`. The guard is the source's:
`if (gst_http_cookie_jar_check_start_operation (jar)) { UNLOCK; return; }`. -/
def gst_http_cookie_jar_delete_cookie (priv : GstHttpCookieJarPrivate)
    (author : Nat) (cookie : GstHttpCookie) :
    Option (GstHttpCookieJarPrivate × List ChangedSignal) :=
  match gst_http_cookie_jar_check_start_operation priv with
  | (true, priv0) => some (priv0, [])
  | (false, priv0) =>
    match cookie.domain with
    | none => none
    | some domain =>
      let cookies := domains_lookup priv0.domains domain
      if cookies = [] then some (gst_http_cookie_jar_finish_operation priv0, [])
      else
        match delete_scan cookie cookies with
        | none => none
        | some (some (i, c)) =>
            let priv1 := { priv0 with
              domains := domains_insert priv0.domains domain (cookies.eraseIdx i) }
            let r := gst_http_cookie_jar_changed priv1 author (some c) none
            some (gst_http_cookie_jar_finish_operation r.1, r.2)
        | some none => some (gst_http_cookie_jar_finish_operation priv0, [])

/-! ## Cookie construction and expiry -/

/-- GLib `g_date_time_new (tz, 1970, 1, 1, 0, 0, 0)`, the one date the source asks
for; a time zone is its UTC offset in seconds and `none` is a NULL `GTimeZone *`.
GLib begins with `g_return_val_if_fail (tz != NULL, NULL)`, so a NULL time zone
gives NULL; with a time zone the result is the instant of that local time, the
Unix epoch (instant 0) minus the offset. -/
def g_date_time_new_1970 (tz : Option Int) : Option Int :=
  match tz with
  | none => none
  | some utc_offset => some (-(utc_offset * 1000000))

/-- GLib `g_date_time_add_seconds`: the instant `seconds` later. The clock and an
`int` number of seconds stay inside the range of `GDateTime`, so the result is
never NULL. -/
def g_date_time_add_seconds (datetime : Int) (seconds : Int) : Option Int :=
  some (datetime + seconds * 1000000)

/-- The function `gst_http_cookie_set_max_age`; `now` is the clock read by
`g_date_time_new_now_local`. The previous expiry is released first. -/
def gst_http_cookie_set_max_age (now : Int) (cookie : GstHttpCookie) (max_age : Int) :
    GstHttpCookie :=
  if max_age = -1 then { cookie with expires := none }
  else if max_age = 0 then { cookie with expires := g_date_time_new_1970 none }
  else { cookie with expires := g_date_time_add_seconds now max_age }

/-- The function `cookie_new_internal`: a zeroed cookie gets copies of the four
strings, then `gst_http_cookie_set_max_age`. -/
def cookie_new_internal (now : Int) (name value : String) (domain path : Option String)
    (max_age : Int) : GstHttpCookie :=
  gst_http_cookie_set_max_age now
    { name := name, value := value, domain := domain, path := path,
      expires := none, secure := false, http_only := false } max_age

/-- The function `gst_http_cookie_new`: NULL when `name` or `value` is NULL
(`g_return_val_if_fail`); a NULL `domain` only warns. -/
def gst_http_cookie_new (now : Int) (name value domain path : Option String)
    (max_age : Int) : Option GstHttpCookie :=
  match name with
  | none => none
  | some n =>
    match value with
    | none => none
    | some v => some (cookie_new_internal now n v domain path max_age)

/-! ## Sequences of calls -/

/-- GLib `g_hash_table_lookup` on the serials table. -/
def serials_lookup : SerialTable → Nat → Option Nat
  | [], _ => none
  | (k, v) :: rest, key => if k = key then some v else serials_lookup rest key

/-- A call of one of the two mutating operations of the jar, with its arguments
(and, for add, the clock at the time of the call). -/
inductive JarCall where
  | add (now : Int) (author : Nat) (cookie : CookiePtr)
  | delete (author : Nat) (cookie : GstHttpCookie)

/-- The jar state after one call; signals are dropped. -/
def run_call (priv : GstHttpCookieJarPrivate) : JarCall → Option GstHttpCookieJarPrivate
  | JarCall.add now author cookie =>
      (gst_http_cookie_jar_add_cookie priv now author cookie).map (fun r => r.1)
  | JarCall.delete author cookie =>
      (gst_http_cookie_jar_delete_cookie priv author cookie).map (fun r => r.1)

/-- The jar state after a sequence of calls, one after the other. -/
def run_calls : GstHttpCookieJarPrivate → List JarCall → Option GstHttpCookieJarPrivate
  | priv, [] => some priv
  | priv, call :: rest =>
      match run_call priv call with
      | none => none
      | some priv1 => run_calls priv1 rest

/-- The number of increments of the serial counter during a sequence of calls: the
calls after which the counter differs from the counter before. -/
def serial_increments : GstHttpCookieJarPrivate → List JarCall → Nat
  | _, [] => 0
  | priv, call :: rest =>
      match run_call priv call with
      | none => 0
      | some priv1 =>
          (if priv1.serial = priv.serial then 0 else 1) + serial_increments priv1 rest

/-! ## Data-model predicates used by the statements -/


/-- The cookie pointers stored in the table: the domain lists one after the other, in
the iteration order of the table. -/
def stored_cookies : DomainTable → List CookiePtr
  | [] => []
  | (_, v) :: rest => v ++ stored_cookies rest


/-- The uniqueness invariant of a domain list: no two cookies of the list have the
same name and the same (nullable) path. -/
def unique_slots (l : List CookiePtr) : Prop :=
  l.Pairwise (fun a b => same_slot a.obj b.obj = false)

instance (l : List CookiePtr) : Decidable (unique_slots l) := by
  unfold unique_slots; infer_instance

/-- The number of cookies stored in all domain lists. -/
def cookie_count (t : DomainTable) : Nat :=
  (t.map (fun e => e.2.length)).sum

/-- A cookie is past-expired at `now`: its expiry is present and strictly before `now`. -/
def past_expired (now : Int) (cookie : GstHttpCookie) : Prop :=
  ∃ t, cookie.expires = some t ∧ t < now

/-- The uniqueness invariant of the jar: every domain list satisfies `unique_slots`. -/
def jar_unique_slots (t : DomainTable) : Prop :=
  ∀ e ∈ t, unique_slots e.2

instance (t : DomainTable) : Decidable (jar_unique_slots t) := by
  unfold jar_unique_slots; infer_instance

/-- The pair (name, path) that identifies the slot of a stored cookie. -/
def slot_key (p : CookiePtr) : String × Option String :=
  (p.obj.name, p.obj.path)

/-! ## Lemmas on the domain keys and the tables -/

theorem ascii_strcasecmp_zero_iff (a b : List Char) :
    ascii_strcasecmp_zero a b = true ↔ a.map Char.toLower = b.map Char.toLower := by
  induction a generalizing b with
  | nil => cases b <;> simp [ascii_strcasecmp_zero]
  | cons x xs ih =>
    cases b with
    | nil => simp [ascii_strcasecmp_zero]
    | cons y ys =>
      by_cases h : x.toLower = y.toLower
      · simp [ascii_strcasecmp_zero, h, ih]
      · simp [ascii_strcasecmp_zero, h]

theorem str_case_equal_iff (a b : String) :
    gst_http_str_case_equal a b = true ↔ ascii_fold a = ascii_fold b := by
  unfold gst_http_str_case_equal ascii_fold
  exact ascii_strcasecmp_zero_iff _ _

theorem str_case_equal_refl (a : String) : gst_http_str_case_equal a a = true :=
  (str_case_equal_iff a a).2 rfl

theorem str_case_equal_congr (k k1 k2 : String) (h : ascii_fold k1 = ascii_fold k2) :
    gst_http_str_case_equal k k1 = gst_http_str_case_equal k k2 := by
  apply Bool.eq_iff_iff.2
  rw [str_case_equal_iff, str_case_equal_iff, h]

theorem domains_lookup_congr (t : DomainTable) (k1 k2 : String)
    (h : ascii_fold k1 = ascii_fold k2) :
    domains_lookup t k1 = domains_lookup t k2 := by
  induction t with
  | nil => rfl
  | cons e rest ih =>
    obtain ⟨k, v⟩ := e
    simp only [domains_lookup, str_case_equal_congr k k1 k2 h, ih]

theorem domains_insert_congr (t : DomainTable) (k1 k2 : String) (v : List CookiePtr)
    (h : ascii_fold k1 = ascii_fold k2) :
    domains_lookup (domains_insert t k1 v) k2 = v := by
  induction t with
  | nil =>
    simp [domains_insert, domains_lookup, (str_case_equal_iff k1 k2).2 h]
  | cons e rest ih =>
    obtain ⟨k, v0⟩ := e
    by_cases hk : gst_http_str_case_equal k k1 = true
    · have hk2 : gst_http_str_case_equal k k2 = true := by
        rw [← str_case_equal_congr k k1 k2 h]; exact hk
      simp [domains_insert, domains_lookup, hk, hk2]
    · have hk2 : ¬ gst_http_str_case_equal k k2 = true := by
        rw [← str_case_equal_congr k k1 k2 h]; exact hk
      simp [domains_insert, domains_lookup, hk, hk2, ih]

theorem domains_lookup_insert (t : DomainTable) (k : String) (v : List CookiePtr) :
    domains_lookup (domains_insert t k v) k = v :=
  domains_insert_congr t k k v rfl

theorem cookie_count_insert (t : DomainTable) (k : String) (v : List CookiePtr) :
    cookie_count (domains_insert t k v) + (domains_lookup t k).length
      = cookie_count t + v.length := by
  induction t with
  | nil => simp [domains_insert, domains_lookup, cookie_count]
  | cons e rest ih =>
    obtain ⟨k0, v0⟩ := e
    by_cases hk : gst_http_str_case_equal k0 k = true
    · simp [domains_insert, domains_lookup, hk, cookie_count]; omega
    · have hk0 : gst_http_str_case_equal k0 k = false := by simpa using hk
      simp only [domains_insert, domains_lookup, hk0, Bool.false_eq_true, if_false]
      simp only [cookie_count, List.map_cons, List.sum_cons] at ih ⊢
      omega

theorem all_cookies_fold_length (t : DomainTable) (acc : List GstHttpCookie) :
    (t.foldl (fun l entry =>
        entry.2.foldl (fun l p => gst_http_cookie_copy p.obj :: l) l) acc).length
      = acc.length + cookie_count t := by
  have inner : ∀ (cs : List CookiePtr) (a : List GstHttpCookie),
      (cs.foldl (fun l p => gst_http_cookie_copy p.obj :: l) a).length
        = a.length + cs.length := by
    intro cs
    induction cs with
    | nil => intro a; rfl
    | cons c cs ih => intro a; simp only [List.foldl_cons, ih, List.length_cons]; omega
  induction t generalizing acc with
  | nil => simp [cookie_count]
  | cons e rest ih =>
    simp only [List.foldl_cons, ih, inner]
    simp only [cookie_count, List.map_cons, List.sum_cons]
    omega

theorem all_cookies_length (priv : GstHttpCookieJarPrivate) :
    (gst_http_cookie_jar_all_cookies priv).2.length = cookie_count priv.domains := by
  simp [gst_http_cookie_jar_all_cookies, all_cookies_fold_length]

theorem gst_http_cookie_copy_eq (cookie : GstHttpCookie) :
    gst_http_cookie_copy cookie = cookie := by
  cases cookie with
  | mk n v d p e s h => cases e <;> simp [gst_http_cookie_copy]

/-! ## Lemmas on the scan loop of add -/

theorem same_slot_iff (a b : GstHttpCookie) :
    same_slot a b = true ↔ a.name = b.name ∧ a.path = b.path := by
  simp [same_slot]

theorem cookie_expired_iff (now : Int) (cookie : GstHttpCookie) :
    cookie_expired now cookie = true ↔ past_expired now cookie := by
  unfold cookie_expired past_expired date_time_is_past
  cases h : cookie.expires with
  | none => simp
  | some t => simp

theorem add_scan_none (c : GstHttpCookie) (l : List CookiePtr)
    (h : ∀ x ∈ l, ¬ (x.obj.name = c.name ∧ x.obj.path = c.path)) :
    add_scan c l = none := by
  induction l with
  | nil => rfl
  | cons x xs ih =>
    have hx : same_slot c x.obj = false := by
      cases hs : same_slot c x.obj with
      | false => rfl
      | true =>
        have := (same_slot_iff _ _).1 hs
        exact absurd ⟨this.1.symm, this.2.symm⟩ (h x (List.mem_cons_self _ _))
    have hxs := ih (fun y hy => h y (List.mem_cons_of_mem _ hy))
    simp [add_scan, hx, hxs]

theorem add_scan_unique (c : GstHttpCookie) (l : List CookiePtr) (i : Nat) (o : CookiePtr)
    (huniq : unique_slots l) (hi : l[i]? = some o)
    (hname : c.name = o.obj.name) (hpath : c.path = o.obj.path) :
    add_scan c l = some (i, o) := by
  induction l generalizing i with
  | nil => simp at hi
  | cons x xs ih =>
    cases i with
    | zero =>
      simp at hi
      subst hi
      simp [add_scan, same_slot, hname, hpath]
    | succ n =>
      simp at hi
      have hmem : o ∈ xs := List.getElem?_mem hi
      have hpw := List.pairwise_cons.1 huniq
      have hxo : same_slot x.obj o.obj = false := hpw.1 o hmem
      have hx : same_slot c x.obj = false := by
        cases hs : same_slot c x.obj with
        | false => rfl
        | true =>
          have h1 := (same_slot_iff _ _).1 hs
          have : same_slot x.obj o.obj = true :=
            (same_slot_iff _ _).2 ⟨h1.1.symm.trans hname, h1.2.symm.trans hpath⟩
          rw [hxo] at this
          exact absurd this (by decide)
      have hrec := ih n hpw.2 hi
      simp [add_scan, hx, hrec]

instance (now : Int) (cookie : GstHttpCookie) : Decidable (past_expired now cookie) :=
  decidable_of_iff _ (cookie_expired_iff now cookie)

theorem cookie_expired_of_not_past (now : Int) (cookie : GstHttpCookie)
    (h : ¬ past_expired now cookie) : cookie_expired now cookie = false := by
  cases hc : cookie_expired now cookie with
  | false => rfl
  | true => exact absurd ((cookie_expired_iff _ _).1 hc) h

theorem changed_constructed (priv : GstHttpCookieJarPrivate) (author : Nat)
    (old new : Option CookiePtr) :
    (gst_http_cookie_jar_changed priv author old new).1.constructed = priv.constructed := rfl

theorem changed_domains (priv : GstHttpCookieJarPrivate) (author : Nat)
    (old new : Option CookiePtr) :
    (gst_http_cookie_jar_changed priv author old new).1.domains = priv.domains := rfl

theorem changed_flag (priv : GstHttpCookieJarPrivate) (author : Nat)
    (old new : Option CookiePtr) :
    (gst_http_cookie_jar_changed priv author old new).1.ongoing_operation
      = priv.ongoing_operation := rfl

theorem changed_signals (priv : GstHttpCookieJarPrivate) (author : Nat)
    (old new : Option CookiePtr) (hready : priv.constructed = true) :
    (gst_http_cookie_jar_changed priv author old new).2
      = [{ author := author, old_cookie := old, new_cookie := new }] := by
  simp [gst_http_cookie_jar_changed, hready]

theorem finish_operation_domains (priv : GstHttpCookieJarPrivate) :
    (gst_http_cookie_jar_finish_operation priv).domains = priv.domains := by
  unfold gst_http_cookie_jar_finish_operation; split <;> rfl

theorem finish_operation_flag (priv : GstHttpCookieJarPrivate) :
    (gst_http_cookie_jar_finish_operation priv).ongoing_operation = false := by
  unfold gst_http_cookie_jar_finish_operation
  cases h : priv.ongoing_operation <;> simp [h]

/-! ## The five paths of add on an idle jar -/

theorem add_cookie_busy (priv : GstHttpCookieJarPrivate) (now : Int) (author : Nat)
    (c : CookiePtr) (hbusy : priv.ongoing_operation = true) :
    gst_http_cookie_jar_add_cookie priv now author c = some (priv, []) := by
  simp [gst_http_cookie_jar_add_cookie, gst_http_cookie_jar_check_start_operation, hbusy]

theorem add_cookie_expire_path (priv : GstHttpCookieJarPrivate) (now : Int) (author : Nat)
    (c : CookiePtr) (d : String) (i : Nat) (o : CookiePtr)
    (hidle : priv.ongoing_operation = false) (hdom : c.obj.domain = some d)
    (hscan : add_scan c.obj (domains_lookup priv.domains d) = some (i, o))
    (hexp : cookie_expired now c.obj = true) :
    gst_http_cookie_jar_add_cookie priv now author c
      = some ({ priv with
                  domains := domains_insert priv.domains d
                    ((domains_lookup priv.domains d).eraseIdx i)
                  serials := serials_remove priv.serials o.addr },
              if priv.constructed then
                [{ author := author, old_cookie := some o, new_cookie := none }]
              else []) := by
  cases priv with
  | mk k ds ss n g =>
    simp only at hidle hscan
    subst hidle
    simp [gst_http_cookie_jar_add_cookie, gst_http_cookie_jar_check_start_operation, hdom,
      hscan, hexp, gst_http_cookie_jar_changed, gst_http_cookie_jar_finish_operation]

theorem add_cookie_replace_path (priv : GstHttpCookieJarPrivate) (now : Int) (author : Nat)
    (c : CookiePtr) (d : String) (i : Nat) (o : CookiePtr)
    (hidle : priv.ongoing_operation = false) (hdom : c.obj.domain = some d)
    (hscan : add_scan c.obj (domains_lookup priv.domains d) = some (i, o))
    (hexp : cookie_expired now c.obj = false) (hval : c.obj.value ≠ o.obj.value) :
    gst_http_cookie_jar_add_cookie priv now author c
      = some ({ priv with
                  domains := domains_insert priv.domains d
                    ((domains_lookup priv.domains d).set i c)
                  serials := serials_insert
                    (if c.addr ≠ o.addr then serials_remove priv.serials o.addr
                     else priv.serials) c.addr ((priv.serial + 1) % 2 ^ 32)
                  serial := (priv.serial + 1) % 2 ^ 32 },
              if priv.constructed then
                [{ author := author, old_cookie := some o, new_cookie := some c }]
              else []) := by
  cases priv with
  | mk k ds ss n g =>
    simp only at hidle hscan
    subst hidle
    simp [gst_http_cookie_jar_add_cookie, gst_http_cookie_jar_check_start_operation, hdom,
      hscan, hexp, hval, gst_http_cookie_jar_changed, gst_http_cookie_jar_finish_operation]

theorem add_cookie_swap_path (priv : GstHttpCookieJarPrivate) (now : Int) (author : Nat)
    (c : CookiePtr) (d : String) (i : Nat) (o : CookiePtr)
    (hidle : priv.ongoing_operation = false) (hdom : c.obj.domain = some d)
    (hscan : add_scan c.obj (domains_lookup priv.domains d) = some (i, o))
    (hexp : cookie_expired now c.obj = false) (hval : c.obj.value = o.obj.value) :
    gst_http_cookie_jar_add_cookie priv now author c
      = some ({ priv with
                  domains := domains_insert priv.domains d
                    ((domains_lookup priv.domains d).set i c) }, []) := by
  cases priv with
  | mk k ds ss n g =>
    simp only at hidle hscan
    subst hidle
    simp [gst_http_cookie_jar_add_cookie, gst_http_cookie_jar_check_start_operation, hdom,
      hscan, hexp, hval, gst_http_cookie_jar_finish_operation]

theorem add_cookie_discard_path (priv : GstHttpCookieJarPrivate) (now : Int) (author : Nat)
    (c : CookiePtr) (d : String)
    (hidle : priv.ongoing_operation = false) (hdom : c.obj.domain = some d)
    (hscan : add_scan c.obj (domains_lookup priv.domains d) = none)
    (hexp : cookie_expired now c.obj = true) :
    gst_http_cookie_jar_add_cookie priv now author c = some (priv, []) := by
  cases priv with
  | mk k ds ss n g =>
    simp only at hidle hscan
    subst hidle
    simp [gst_http_cookie_jar_add_cookie, gst_http_cookie_jar_check_start_operation, hdom,
      hscan, hexp, gst_http_cookie_jar_finish_operation]

theorem add_cookie_append_path (priv : GstHttpCookieJarPrivate) (now : Int) (author : Nat)
    (c : CookiePtr) (d : String)
    (hidle : priv.ongoing_operation = false) (hdom : c.obj.domain = some d)
    (hscan : add_scan c.obj (domains_lookup priv.domains d) = none)
    (hexp : cookie_expired now c.obj = false) :
    gst_http_cookie_jar_add_cookie priv now author c
      = some ({ priv with
                  domains := domains_insert priv.domains d
                    (domains_lookup priv.domains d ++ [c])
                  serials := serials_insert priv.serials c.addr ((priv.serial + 1) % 2 ^ 32)
                  serial := (priv.serial + 1) % 2 ^ 32 },
              if priv.constructed then
                [{ author := author, old_cookie := none, new_cookie := some c }]
              else []) := by
  cases priv with
  | mk k ds ss n g =>
    simp only at hidle hscan
    subst hidle
    simp [gst_http_cookie_jar_add_cookie, gst_http_cookie_jar_check_start_operation, hdom,
      hscan, hexp, gst_http_cookie_jar_changed, gst_http_cookie_jar_finish_operation]

theorem unique_slots_getElem (l : List CookiePtr) (huniq : unique_slots l) (i j : Nat)
    (a b : CookiePtr) (hi : l[i]? = some a) (hj : l[j]? = some b) (hij : i ≠ j) :
    ¬ (a.obj.name = b.obj.name ∧ a.obj.path = b.obj.path) := by
  intro hab
  have hpw := (List.pairwise_iff_getElem.1 huniq)
  obtain ⟨hil, hia⟩ := List.getElem?_eq_some.1 hi
  obtain ⟨hjl, hjb⟩ := List.getElem?_eq_some.1 hj
  rcases Nat.lt_or_gt_of_ne hij with h | h
  · have := hpw i j hil hjl h
    rw [hia, hjb] at this
    have ht := (same_slot_iff a.obj b.obj).2 hab
    rw [this] at ht
    exact absurd ht (by decide)
  · have := hpw j i hjl hil h
    rw [hia, hjb] at this
    have ht := (same_slot_iff b.obj a.obj).2 ⟨hab.1.symm, hab.2.symm⟩
    rw [this] at ht
    exact absurd ht (by decide)

/-! ## Sample data -/

/-- A session cookie `sid=1` for `Example.com`, path `/`. -/
def sample_cookie : GstHttpCookie :=
  { name := "sid", value := "1", domain := some "Example.com", path := some "/",
    expires := none, secure := false, http_only := false }

/-- An idle, constructed jar with no cookies. -/
def empty_jar : GstHttpCookieJarPrivate :=
  { constructed := true, domains := [], serials := [], serial := 0,
    ongoing_operation := false }

/-- The idle, constructed jar that holds `sample_cookie` (at address 1) and a second
cookie `lang=en` (at address 2) in the list of `Example.com`. -/
def sample_jar : GstHttpCookieJarPrivate :=
  { constructed := true
    domains := [("Example.com",
      [⟨1, sample_cookie⟩, ⟨2, { sample_cookie with name := "lang", value := "en" }⟩])]
    serials := [(1, 1), (2, 2)]
    serial := 2
    ongoing_operation := false }

/-- The cookie `sid=2` for `example.COM`, path `/`: the slot of `sample_cookie` with
another value and the domain in another case. -/
def sample_update : CookiePtr :=
  ⟨3, { sample_cookie with value := "2", domain := some "example.COM" }⟩

/-- The cookie `sid=1` again, now secure and with an expiry in the future of 100. -/
def sample_refresh : CookiePtr :=
  ⟨3, { sample_cookie with secure := true, expires := some 500 }⟩

/-- The cookie `sid=` with the expiry 0: the request to remove `sid`. -/
def sample_removal : CookiePtr :=
  ⟨3, { sample_cookie with value := "", expires := some 0 }⟩

/-- A cookie `other=1` that expired at 99. -/
def sample_stale : CookiePtr :=
  ⟨3, { sample_cookie with name := "other", expires := some 99 }⟩

/-- The jar `sample_jar` while a mutation is in flight. -/
def busy_jar : GstHttpCookieJarPrivate :=
  { sample_jar with ongoing_operation := true }

/-! ## Properties of add -/

/-- C1: on an idle, constructed jar whose domain index is empty, adding a cookie `c`
(with a domain) that is not past-expired at `now` gives a jar whose
`all_cookies` is the one-element list holding a cookie equal to `c` on all
seven fields, and emits exactly one signal `changed (author, NULL, c)`. -/
theorem add_cookie_to_empty_jar (priv : GstHttpCookieJarPrivate) (now : Int) (author : Nat)
    (c : CookiePtr) (d : String)
    (hidle : priv.ongoing_operation = false) (hready : priv.constructed = true)
    (hempty : priv.domains = []) (hdom : c.obj.domain = some d)
    (hvalid : ¬ past_expired now c.obj) :
    ∃ priv1, gst_http_cookie_jar_add_cookie priv now author c
        = some (priv1, [{ author := author, old_cookie := none, new_cookie := some c }]) ∧
      (gst_http_cookie_jar_all_cookies priv1).2 = [c.obj] := by
  have hexp := cookie_expired_of_not_past now c.obj hvalid
  have hscan : add_scan c.obj (domains_lookup priv.domains d) = none := by
    rw [hempty]; rfl
  rw [add_cookie_append_path priv now author c d hidle hdom hscan hexp, if_pos hready]
  refine ⟨_, rfl, ?_⟩
  simp [gst_http_cookie_jar_all_cookies, hempty, domains_lookup, domains_insert,
    gst_http_cookie_copy_eq]

theorem add_cookie_to_empty_jar_witness :
    ∃ priv1, gst_http_cookie_jar_add_cookie empty_jar 100 7 ⟨1, sample_cookie⟩
        = some (priv1, [{ author := 7, old_cookie := none,
                          new_cookie := some ⟨1, sample_cookie⟩ }]) ∧
      (gst_http_cookie_jar_all_cookies priv1).2 = [sample_cookie] :=
  add_cookie_to_empty_jar empty_jar 100 7 ⟨1, sample_cookie⟩ "Example.com" rfl rfl rfl rfl
    (by decide)

/-- C2: on an idle, constructed jar whose list of domain `d` holds `o` at position `i`
(and satisfies the uniqueness invariant of domain lists), adding a cookie `c`
that is not past-expired, whose domain equals `d` up to ASCII case, whose name
and nullable path equal those of `o` and whose value differs: the list of `d`
keeps its length, holds `c` at position `i`, is unchanged at every other
position, the number of cookies returned by `all_cookies` is unchanged, and
exactly one signal `changed (author, o, c)` is emitted. -/
theorem add_cookie_replaces_value (priv : GstHttpCookieJarPrivate) (now : Int)
    (author : Nat) (c o : CookiePtr) (d dc : String) (i : Nat)
    (hidle : priv.ongoing_operation = false) (hready : priv.constructed = true)
    (huniq : unique_slots (domains_lookup priv.domains d))
    (hstored : (domains_lookup priv.domains d)[i]? = some o)
    (hvalid : ¬ past_expired now c.obj)
    (hdom : c.obj.domain = some dc) (hfold : ascii_fold dc = ascii_fold d)
    (hname : c.obj.name = o.obj.name) (hpath : c.obj.path = o.obj.path)
    (hval : c.obj.value ≠ o.obj.value) :
    ∃ priv1, gst_http_cookie_jar_add_cookie priv now author c
        = some (priv1, [{ author := author, old_cookie := some o, new_cookie := some c }]) ∧
      (domains_lookup priv1.domains d).length = (domains_lookup priv.domains d).length ∧
      (domains_lookup priv1.domains d)[i]? = some c ∧
      (∀ j, j ≠ i →
        (domains_lookup priv1.domains d)[j]? = (domains_lookup priv.domains d)[j]?) ∧
      (gst_http_cookie_jar_all_cookies priv1).2.length
        = (gst_http_cookie_jar_all_cookies priv).2.length := by
  have hexp := cookie_expired_of_not_past now c.obj hvalid
  have hlk : domains_lookup priv.domains dc = domains_lookup priv.domains d :=
    domains_lookup_congr _ _ _ hfold
  have hscan : add_scan c.obj (domains_lookup priv.domains dc) = some (i, o) := by
    rw [hlk]; exact add_scan_unique _ _ _ _ huniq hstored hname hpath
  have hlt : i < (domains_lookup priv.domains d).length :=
    (List.getElem?_eq_some.1 hstored).1
  rw [add_cookie_replace_path priv now author c dc i o hidle hdom hscan hexp hval,
    if_pos hready]
  refine ⟨_, rfl, ?_, ?_, ?_, ?_⟩
  · simp only [domains_insert_congr _ _ _ _ hfold, hlk, List.length_set]
  · simp only [domains_insert_congr _ _ _ _ hfold, hlk]
    exact List.getElem?_set_self hlt
  · intro j hj
    simp only [domains_insert_congr _ _ _ _ hfold, hlk]
    exact List.getElem?_set_ne (Ne.symm hj)
  · rw [all_cookies_length, all_cookies_length]
    have := cookie_count_insert priv.domains dc ((domains_lookup priv.domains dc).set i c)
    simp only [List.length_set] at this
    simpa using this

theorem add_cookie_replaces_value_witness :
    ∃ priv1, gst_http_cookie_jar_add_cookie sample_jar 100 7
          sample_update
        = some (priv1, [⟨7, some ⟨1, sample_cookie⟩, some sample_update⟩]) ∧
      (domains_lookup priv1.domains "example.com").length
        = (domains_lookup sample_jar.domains "example.com").length ∧
      (domains_lookup priv1.domains "example.com")[0]?
        = some sample_update ∧
      (∀ j, j ≠ 0 → (domains_lookup priv1.domains "example.com")[j]?
        = (domains_lookup sample_jar.domains "example.com")[j]?) ∧
      (gst_http_cookie_jar_all_cookies priv1).2.length
        = (gst_http_cookie_jar_all_cookies sample_jar).2.length :=
  add_cookie_replaces_value sample_jar 100 7
    sample_update
    ⟨1, sample_cookie⟩ "example.com" "example.COM" 0 rfl rfl (by decide) (by decide)
    (by decide) rfl (by decide) rfl rfl (by decide)

/-- C3: on an idle jar (constructed or not) whose list of domain `d` holds `o` at
position `i` (and satisfies the uniqueness invariant of domain lists), adding a
cookie `c` that is not past-expired, has the domain `d` up to ASCII case and the same
name, nullable path and value as `o`: the list of `d` afterwards is the old
list with `c` written at position `i` (so the stored expires, secure and
http-only are those of `c`), and no signal is emitted. -/
theorem add_cookie_same_value_silent (priv : GstHttpCookieJarPrivate) (now : Int)
    (author : Nat) (c o : CookiePtr) (d dc : String) (i : Nat)
    (hidle : priv.ongoing_operation = false)
    (huniq : unique_slots (domains_lookup priv.domains d))
    (hstored : (domains_lookup priv.domains d)[i]? = some o)
    (hvalid : ¬ past_expired now c.obj)
    (hdom : c.obj.domain = some dc) (hfold : ascii_fold dc = ascii_fold d)
    (hname : c.obj.name = o.obj.name) (hpath : c.obj.path = o.obj.path)
    (hval : c.obj.value = o.obj.value) :
    ∃ priv1, gst_http_cookie_jar_add_cookie priv now author c = some (priv1, []) ∧
      domains_lookup priv1.domains d = (domains_lookup priv.domains d).set i c ∧
      (domains_lookup priv1.domains d)[i]? = some c := by
  have hexp := cookie_expired_of_not_past now c.obj hvalid
  have hlk : domains_lookup priv.domains dc = domains_lookup priv.domains d :=
    domains_lookup_congr _ _ _ hfold
  have hscan : add_scan c.obj (domains_lookup priv.domains dc) = some (i, o) := by
    rw [hlk]; exact add_scan_unique _ _ _ _ huniq hstored hname hpath
  have hlt : i < (domains_lookup priv.domains d).length :=
    (List.getElem?_eq_some.1 hstored).1
  rw [add_cookie_swap_path priv now author c dc i o hidle hdom hscan hexp hval]
  refine ⟨_, rfl, ?_, ?_⟩
  · simp only [domains_insert_congr _ _ _ _ hfold, hlk]
  · simp only [domains_insert_congr _ _ _ _ hfold, hlk]
    exact List.getElem?_set_self hlt

theorem add_cookie_same_value_silent_witness :
    ∃ priv1, gst_http_cookie_jar_add_cookie sample_jar 100 7 sample_refresh
        = some (priv1, []) ∧
      domains_lookup priv1.domains "Example.com"
        = (domains_lookup sample_jar.domains "Example.com").set 0 sample_refresh ∧
      (domains_lookup priv1.domains "Example.com")[0]? = some sample_refresh :=
  add_cookie_same_value_silent sample_jar 100 7 sample_refresh
    ⟨1, sample_cookie⟩ "Example.com" "Example.com" 0 rfl (by decide) (by decide)
    (by decide) rfl rfl rfl rfl rfl

/-- C4: on an idle, constructed jar whose list of domain `d` holds `o` at position `i`
(and satisfies the uniqueness invariant of domain lists), adding a cookie `c`
with the domain `d` up to ASCII case, the same name and nullable path as `o`
and an expiry strictly before `now`: the list of `d` afterwards is the old
list with position `i` erased (the other cookies keep their order), `c` is not
in it, and exactly one signal `changed (author, o, NULL)` is emitted. -/
theorem add_cookie_expired_removes (priv : GstHttpCookieJarPrivate) (now : Int)
    (author : Nat) (c o : CookiePtr) (d dc : String) (i : Nat)
    (hidle : priv.ongoing_operation = false) (hready : priv.constructed = true)
    (huniq : unique_slots (domains_lookup priv.domains d))
    (hstored : (domains_lookup priv.domains d)[i]? = some o)
    (hpast : past_expired now c.obj)
    (hdom : c.obj.domain = some dc) (hfold : ascii_fold dc = ascii_fold d)
    (hname : c.obj.name = o.obj.name) (hpath : c.obj.path = o.obj.path) :
    ∃ priv1, gst_http_cookie_jar_add_cookie priv now author c
        = some (priv1, [{ author := author, old_cookie := some o, new_cookie := none }]) ∧
      domains_lookup priv1.domains d = (domains_lookup priv.domains d).eraseIdx i ∧
      c ∉ domains_lookup priv1.domains d := by
  have hexp := (cookie_expired_iff now c.obj).2 hpast
  have hlk : domains_lookup priv.domains dc = domains_lookup priv.domains d :=
    domains_lookup_congr _ _ _ hfold
  have hscan : add_scan c.obj (domains_lookup priv.domains dc) = some (i, o) := by
    rw [hlk]; exact add_scan_unique _ _ _ _ huniq hstored hname hpath
  rw [add_cookie_expire_path priv now author c dc i o hidle hdom hscan hexp, if_pos hready]
  refine ⟨_, rfl, ?_, ?_⟩
  · simp only [domains_insert_congr _ _ _ _ hfold, hlk]
  · simp only [domains_insert_congr _ _ _ _ hfold, hlk]
    intro hmem
    obtain ⟨j, hj, hjc⟩ := List.mem_eraseIdx_iff_getElem?.1 hmem
    exact unique_slots_getElem _ huniq j i c o hjc hstored hj ⟨hname, hpath⟩

theorem add_cookie_expired_removes_witness :
    ∃ priv1, gst_http_cookie_jar_add_cookie sample_jar 100 7
          sample_removal
        = some (priv1, [⟨7, some ⟨1, sample_cookie⟩, none⟩]) ∧
      domains_lookup priv1.domains "Example.com"
        = (domains_lookup sample_jar.domains "Example.com").eraseIdx 0 ∧
      sample_removal ∉ domains_lookup priv1.domains "Example.com" :=
  add_cookie_expired_removes sample_jar 100 7
    sample_removal
    ⟨1, sample_cookie⟩ "Example.com" "Example.com" 0 rfl rfl (by decide) (by decide)
    ⟨0, rfl, by decide⟩ rfl rfl rfl rfl

/-- C5: on an idle jar, adding a past-expired cookie `c` whose domain list holds no
cookie with the name and path of `c` leaves the domain index, the serial table
and the serial counter unchanged, returns with the flag clear, and emits no
signal. -/
theorem add_cookie_new_expired_noop (priv : GstHttpCookieJarPrivate) (now : Int)
    (author : Nat) (c : CookiePtr) (d : String)
    (hidle : priv.ongoing_operation = false)
    (hdom : c.obj.domain = some d)
    (hpast : past_expired now c.obj)
    (hnew : ∀ x ∈ domains_lookup priv.domains d,
      ¬ (x.obj.name = c.obj.name ∧ x.obj.path = c.obj.path)) :
    ∃ priv1, gst_http_cookie_jar_add_cookie priv now author c = some (priv1, []) ∧
      priv1.domains = priv.domains ∧ priv1.serials = priv.serials ∧
      priv1.serial = priv.serial ∧ priv1.constructed = priv.constructed ∧
      priv1.ongoing_operation = false :=
  ⟨priv, add_cookie_discard_path priv now author c d hidle hdom (add_scan_none _ _ hnew)
    ((cookie_expired_iff now c.obj).2 hpast), rfl, rfl, rfl, rfl, hidle⟩

theorem add_cookie_new_expired_noop_witness :
    ∃ priv1, gst_http_cookie_jar_add_cookie sample_jar 100 7 sample_stale
        = some (priv1, []) ∧
      priv1.domains = sample_jar.domains ∧ priv1.serials = sample_jar.serials ∧
      priv1.serial = sample_jar.serial ∧ priv1.constructed = sample_jar.constructed ∧
      priv1.ongoing_operation = false :=
  add_cookie_new_expired_noop sample_jar 100 7 sample_stale "Example.com"
    rfl rfl ⟨99, rfl, by decide⟩ (by decide)

/-- C9: on a jar whose `ongoing_operation` flag is already set, add returns the jar
state as it was (domain index, serial table, serial counter and flag) and
emits no signal, whatever the cookie. -/
theorem add_cookie_rejected_when_ongoing (priv : GstHttpCookieJarPrivate) (now : Int)
    (author : Nat) (c : CookiePtr) (hbusy : priv.ongoing_operation = true) :
    gst_http_cookie_jar_add_cookie priv now author c = some (priv, []) := by
  simp [gst_http_cookie_jar_add_cookie, gst_http_cookie_jar_check_start_operation, hbusy]

theorem add_cookie_rejected_when_ongoing_witness :
    gst_http_cookie_jar_add_cookie busy_jar 100 7 sample_update
      = some (busy_jar, []) :=
  add_cookie_rejected_when_ongoing busy_jar 100 7 sample_update rfl

/-- On an idle jar, add of a cookie with a domain returns, on each of its five
paths, with the `ongoing_operation` flag clear. -/
theorem add_cookie_keeps_idle (priv : GstHttpCookieJarPrivate) (now : Int) (author : Nat)
    (c : CookiePtr) (d : String)
    (hidle : priv.ongoing_operation = false) (hdom : c.obj.domain = some d) :
    ∃ r, gst_http_cookie_jar_add_cookie priv now author c = some r ∧
      r.1.ongoing_operation = false := by
  cases hscan : add_scan c.obj (domains_lookup priv.domains d) with
  | none =>
    cases hexp : cookie_expired now c.obj with
    | true => exact ⟨_, add_cookie_discard_path priv now author c d hidle hdom hscan hexp, hidle⟩
    | false => exact ⟨_, add_cookie_append_path priv now author c d hidle hdom hscan hexp, hidle⟩
  | some io =>
    obtain ⟨i, o⟩ := io
    cases hexp : cookie_expired now c.obj with
    | true =>
      exact ⟨_, add_cookie_expire_path priv now author c d i o hidle hdom hscan hexp, hidle⟩
    | false =>
      by_cases hval : c.obj.value = o.obj.value
      · exact ⟨_, add_cookie_swap_path priv now author c d i o hidle hdom hscan hexp hval,
          hidle⟩
      · exact ⟨_, add_cookie_replace_path priv now author c d i o hidle hdom hscan hexp hval,
          hidle⟩

/-! ## Properties of delete -/

theorem delete_cookie_idle (priv : GstHttpCookieJarPrivate) (author : Nat)
    (k : GstHttpCookie) (hidle : priv.ongoing_operation = false) :
    gst_http_cookie_jar_delete_cookie priv author k
      = some ({ priv with ongoing_operation := true }, []) := by
  simp [gst_http_cookie_jar_delete_cookie, gst_http_cookie_jar_check_start_operation, hidle]

theorem delete_cookie_ongoing_miss (priv : GstHttpCookieJarPrivate) (author : Nat)
    (k : GstHttpCookie) (d : String) (hbusy : priv.ongoing_operation = true)
    (hdom : k.domain = some d) (hmiss : domains_lookup priv.domains d = []) :
    gst_http_cookie_jar_delete_cookie priv author k
      = some ({ priv with ongoing_operation := false }, []) := by
  simp [gst_http_cookie_jar_delete_cookie, gst_http_cookie_jar_check_start_operation, hbusy,
    hdom, hmiss, gst_http_cookie_jar_finish_operation]

/-- C6, evaluated: `sample_jar` is idle and constructed and stores `sample_cookie`
first in the list of `Example.com`; delete with the key `sample_cookie`
(equal to it by name, value and path) returns with the list as it was, the
flag set, and no signal. -/
theorem delete_cookie_idle_removes_nothing :
    sample_jar.ongoing_operation = false ∧ sample_jar.constructed = true ∧
    (domains_lookup sample_jar.domains "Example.com")[0]? = some ⟨1, sample_cookie⟩ ∧
    gst_http_cookie_equal sample_cookie sample_cookie = some true ∧
    gst_http_cookie_jar_delete_cookie sample_jar 7 sample_cookie = some (busy_jar, []) := by
  decide

/-- C7, evaluated: `empty_jar` is idle and has no list for the domain of
`sample_cookie`; delete with that key returns a state that differs from
`empty_jar`: the `ongoing_operation` flag is now set. -/
theorem delete_cookie_miss_sets_flag :
    empty_jar.ongoing_operation = false ∧
    domains_lookup empty_jar.domains "Example.com" = [] ∧
    gst_http_cookie_jar_delete_cookie empty_jar 7 sample_cookie
      = some ({ empty_jar with ongoing_operation := true }, []) ∧
    gst_http_cookie_jar_delete_cookie empty_jar 7 sample_cookie ≠ some (empty_jar, []) := by
  decide

/-- C8, evaluated: delete on the idle `empty_jar` returns with the flag set, and the
add of the valid cookie `sample_update` that follows is rejected: the jar
stays empty and no signal is emitted. -/
theorem delete_cookie_leaves_flag_set :
    empty_jar.ongoing_operation = false ∧
    (gst_http_cookie_jar_delete_cookie empty_jar 7 sample_cookie).map
        (fun r => r.1.ongoing_operation) = some true ∧
    ((gst_http_cookie_jar_delete_cookie empty_jar 7 sample_cookie).bind
        (fun r => gst_http_cookie_jar_add_cookie r.1 100 7 sample_update)).map
        (fun r => (r.1.domains, r.1.ongoing_operation, r.2)) = some ([], true, []) := by
  decide

/-- C10, evaluated: on `busy_jar` (the flag is set) delete with the key
`sample_cookie` is not rejected: it removes the stored cookie and its serial,
emits `changed (7, sample_cookie, NULL)` and clears the flag. -/
theorem delete_cookie_ongoing_proceeds :
    busy_jar.ongoing_operation = true ∧
    gst_http_cookie_jar_delete_cookie busy_jar 7 sample_cookie
      = some ({ constructed := true
                domains := [("Example.com",
                  [⟨2, { sample_cookie with name := "lang", value := "en" }⟩])]
                serials := [(2, 2)]
                serial := 2
                ongoing_operation := false },
              [⟨7, some ⟨1, sample_cookie⟩, none⟩]) := by
  decide

/-! ## Properties of all_cookies -/

theorem all_cookies_fold_eq (t : DomainTable) (acc : List GstHttpCookie) :
    t.foldl (fun l entry =>
        entry.2.foldl (fun l p => gst_http_cookie_copy p.obj :: l) l) acc
      = ((stored_cookies t).map (fun p => gst_http_cookie_copy p.obj)).reverse ++ acc := by
  have inner : ∀ (cs : List CookiePtr) (a : List GstHttpCookie),
      cs.foldl (fun l p => gst_http_cookie_copy p.obj :: l) a
        = (cs.map (fun p => gst_http_cookie_copy p.obj)).reverse ++ a := by
    intro cs
    induction cs with
    | nil => intro a; rfl
    | cons c cs ih => intro a; simp [List.foldl_cons, ih]
  induction t generalizing acc with
  | nil => rfl
  | cons e rest ih =>
    obtain ⟨k, v⟩ := e
    rw [List.foldl_cons, ih, inner]
    simp [stored_cookies]

theorem all_cookies_eq (priv : GstHttpCookieJarPrivate) :
    (gst_http_cookie_jar_all_cookies priv).2
      = ((stored_cookies priv.domains).map (fun p => gst_http_cookie_copy p.obj)).reverse := by
  simp [gst_http_cookie_jar_all_cookies, all_cookies_fold_eq]

theorem domains_lookup_sublist (t : DomainTable) (d : String) :
    List.Sublist (domains_lookup t d) (stored_cookies t) := by
  induction t with
  | nil => exact List.Sublist.slnil
  | cons e rest ih =>
    obtain ⟨k, v⟩ := e
    by_cases hk : gst_http_str_case_equal k d = true
    · simp only [domains_lookup, hk, if_true, stored_cookies]
      exact List.sublist_append_left _ _
    · have hk0 : gst_http_str_case_equal k d = false := by simpa using hk
      simp only [domains_lookup, hk0, Bool.false_eq_true, if_false, stored_cookies]
      exact ih.trans (List.sublist_append_right _ _)

theorem pair_sublist_of_getElem (l : List CookiePtr) (i j : Nat) (a b : CookiePtr)
    (hij : i < j) (hi : l[i]? = some a) (hj : l[j]? = some b) :
    List.Sublist [a, b] l := by
  induction l generalizing i j with
  | nil => simp at hi
  | cons x xs ih =>
    cases j with
    | zero => omega
    | succ m =>
      simp at hj
      cases i with
      | zero =>
        simp at hi
        subst hi
        exact List.Sublist.cons₂ _ (List.singleton_sublist.2 (List.getElem?_mem hj))
      | succ n =>
        simp at hi
        exact List.Sublist.cons _ (ih n m (by omega) hi hj)

/-- C11, as stated, fails: in `sample_jar` the list of `Example.com` holds `sid`
before `lang`, and `all_cookies` returns the copy of `lang` before the copy of
`sid`, so the two copies do not appear in the order of the domain list. -/
theorem all_cookies_order_counterexample :
    (domains_lookup sample_jar.domains "Example.com")[0]? = some ⟨1, sample_cookie⟩ ∧
    (domains_lookup sample_jar.domains "Example.com")[1]?
      = some ⟨2, { sample_cookie with name := "lang", value := "en" }⟩ ∧
    (gst_http_cookie_jar_all_cookies sample_jar).2
      = [{ sample_cookie with name := "lang", value := "en" }, sample_cookie] ∧
    ¬ List.Sublist
        [gst_http_cookie_copy sample_cookie,
         gst_http_cookie_copy { sample_cookie with name := "lang", value := "en" }]
        (gst_http_cookie_jar_all_cookies sample_jar).2 := by
  decide

/-- C11, amended: for every jar and every two cookies `a`, `b` stored at positions
`i < j` of the list of one domain, the copies appear in the list returned by
`all_cookies` in the reverse order, the copy of `b` before the copy of `a`
(each copy is prepended to the result); the whole domain list, copied and
reversed, is a subsequence of the result. -/
theorem all_cookies_reverses_domain_order (priv : GstHttpCookieJarPrivate) (d : String)
    (i j : Nat) (a b : CookiePtr) (hij : i < j)
    (hi : (domains_lookup priv.domains d)[i]? = some a)
    (hj : (domains_lookup priv.domains d)[j]? = some b) :
    List.Sublist [gst_http_cookie_copy b.obj, gst_http_cookie_copy a.obj]
        (gst_http_cookie_jar_all_cookies priv).2 ∧
      List.Sublist
        ((domains_lookup priv.domains d).map (fun p => gst_http_cookie_copy p.obj)).reverse
        (gst_http_cookie_jar_all_cookies priv).2 := by
  rw [all_cookies_eq]
  have hsub := domains_lookup_sublist priv.domains d
  have hall := (hsub.map (fun p => gst_http_cookie_copy p.obj)).reverse
  have hpair := ((pair_sublist_of_getElem _ i j a b hij hi hj).map
    (fun p => gst_http_cookie_copy p.obj)).reverse
  exact ⟨hpair.trans hall, hall⟩

theorem all_cookies_reverses_domain_order_witness :
    List.Sublist
        [gst_http_cookie_copy { sample_cookie with name := "lang", value := "en" },
         gst_http_cookie_copy sample_cookie]
        (gst_http_cookie_jar_all_cookies sample_jar).2 ∧
      List.Sublist
        ((domains_lookup sample_jar.domains "example.com").map
          (fun p => gst_http_cookie_copy p.obj)).reverse
        (gst_http_cookie_jar_all_cookies sample_jar).2 :=
  all_cookies_reverses_domain_order sample_jar "example.com" 0 1 ⟨1, sample_cookie⟩
    ⟨2, { sample_cookie with name := "lang", value := "en" }⟩ (by decide) (by decide)
    (by decide)

/-- C12: for every jar, `all_cookies` returns the jar state as it was, and its list
is a permutation of the stored cookies (each copy equal to its original on all
seven fields); its length is the sum of the lengths of the domain lists. -/
theorem all_cookies_snapshot (priv : GstHttpCookieJarPrivate) :
    (gst_http_cookie_jar_all_cookies priv).1 = priv ∧
    List.Perm (gst_http_cookie_jar_all_cookies priv).2
      ((stored_cookies priv.domains).map (fun p => p.obj)) ∧
    (gst_http_cookie_jar_all_cookies priv).2.length = cookie_count priv.domains := by
  refine ⟨rfl, ?_, all_cookies_length priv⟩
  rw [all_cookies_eq]
  have hcopy : (fun p : CookiePtr => gst_http_cookie_copy p.obj) = (fun p => p.obj) := by
    funext p; exact gst_http_cookie_copy_eq p.obj
  rw [hcopy]
  exact List.reverse_perm _

/-! ## Properties of cookie equality -/

/-- C13: for two cookies whose paths are present, `gst_http_cookie_equal` has a result,
and it is true exactly when name, value and path are the same strings; cookies
that agree with `a` and `b` on name, value and path (whatever their domain,
expiry, secure and http-only) compare the same way. -/
theorem cookie_equal_name_value_path (a b : GstHttpCookie) (p q : String)
    (ha : a.path = some p) (hb : b.path = some q) :
    gst_http_cookie_equal a b
        = some (decide (a.name = b.name ∧ a.value = b.value ∧ a.path = b.path)) ∧
      (gst_http_cookie_equal a b = some true ↔
        a.name = b.name ∧ a.value = b.value ∧ a.path = b.path) ∧
      (∀ a1 b1 : GstHttpCookie,
        a1.name = a.name → a1.value = a.value → a1.path = a.path →
        b1.name = b.name → b1.value = b.value → b1.path = b.path →
        gst_http_cookie_equal a1 b1 = gst_http_cookie_equal a b) := by
  have hval : gst_http_cookie_equal a b
      = some (decide (a.name = b.name ∧ a.value = b.value ∧ a.path = b.path)) := by
    unfold gst_http_cookie_equal
    by_cases hn : a.name = b.name
    · by_cases hv : a.value = b.value
      · simp [hn, hv, ha, hb]
      · simp [hn, hv]
    · simp [hn]
  refine ⟨hval, ?_, ?_⟩
  · rw [hval]; simp
  · intro a1 b1 h1 h2 h3 h4 h5 h6
    unfold gst_http_cookie_equal
    rw [h1, h2, h3, h4, h5, h6]

theorem cookie_equal_name_value_path_witness :
    gst_http_cookie_equal sample_cookie { sample_cookie with domain := some "other.org" }
        = some (decide (sample_cookie.name = sample_cookie.name ∧
            sample_cookie.value = sample_cookie.value ∧
            sample_cookie.path = sample_cookie.path)) ∧
      (gst_http_cookie_equal sample_cookie { sample_cookie with domain := some "other.org" }
          = some true ↔
        sample_cookie.name = sample_cookie.name ∧ sample_cookie.value = sample_cookie.value ∧
          sample_cookie.path = sample_cookie.path) ∧
      (∀ a1 b1 : GstHttpCookie,
        a1.name = sample_cookie.name → a1.value = sample_cookie.value →
        a1.path = sample_cookie.path →
        b1.name = sample_cookie.name → b1.value = sample_cookie.value →
        b1.path = sample_cookie.path →
        gst_http_cookie_equal a1 b1
          = gst_http_cookie_equal sample_cookie
              { sample_cookie with domain := some "other.org" }) :=
  cookie_equal_name_value_path sample_cookie { sample_cookie with domain := some "other.org" }
    "/" "/" rfl rfl

/-- The cookie `sid=1` for `Example.com` with no path, as
`gst_http_cookie_new ("sid", "1", "Example.com", NULL, -1)` makes it. -/
def pathless_cookie : GstHttpCookie :=
  { sample_cookie with path := none }

/-- C14, evaluated: the cookie that `gst_http_cookie_new` makes for a NULL path compared
with itself has no result (`strcmp` on the NULL paths), and so has the delete
that meets the stored copy of it in a jar whose flag is set (the state in which
delete runs its scan). -/
theorem cookie_equal_null_path_undefined :
    gst_http_cookie_new 100 (some "sid") (some "1") (some "Example.com") none (-1)
      = some pathless_cookie ∧
    gst_http_cookie_equal pathless_cookie pathless_cookie = none ∧
    gst_http_cookie_equal pathless_cookie sample_cookie = none ∧
    gst_http_cookie_jar_delete_cookie
      { constructed := true, domains := [("Example.com", [⟨1, pathless_cookie⟩])],
        serials := [(1, 1)], serial := 1, ongoing_operation := true }
      7 pathless_cookie = none := by
  decide

/-! ## The uniqueness invariant along add and delete -/

theorem same_slot_comm (a b : GstHttpCookie) : same_slot a b = same_slot b a := by
  apply Bool.eq_iff_iff.2
  rw [same_slot_iff, same_slot_iff]
  exact ⟨fun h => ⟨h.1.symm, h.2.symm⟩, fun h => ⟨h.1.symm, h.2.symm⟩⟩

theorem same_slot_false_iff (a b : CookiePtr) :
    same_slot a.obj b.obj = false ↔ slot_key a ≠ slot_key b := by
  rw [← Bool.not_eq_true, same_slot_iff]
  simp [slot_key]

theorem unique_slots_iff (l : List CookiePtr) :
    unique_slots l ↔ (l.map slot_key).Nodup := by
  unfold unique_slots List.Nodup
  rw [List.pairwise_map]
  constructor
  · intro h; exact h.imp (fun hab => (same_slot_false_iff _ _).1 hab)
  · intro h; exact h.imp (fun hab => (same_slot_false_iff _ _).2 hab)

theorem map_set_same_key (l : List CookiePtr) (i : Nat) (o c : CookiePtr)
    (hi : l[i]? = some o) (hkey : slot_key c = slot_key o) :
    (l.set i c).map slot_key = l.map slot_key := by
  induction l generalizing i with
  | nil => rfl
  | cons x xs ih =>
    cases i with
    | zero =>
      simp at hi
      subst hi
      simp [hkey]
    | succ n =>
      simp at hi
      simp [ih n hi]

theorem unique_slots_set (l : List CookiePtr) (i : Nat) (o c : CookiePtr)
    (huniq : unique_slots l) (hi : l[i]? = some o)
    (hname : c.obj.name = o.obj.name) (hpath : c.obj.path = o.obj.path) :
    unique_slots (l.set i c) := by
  rw [unique_slots_iff] at huniq ⊢
  rw [map_set_same_key l i o c hi (by simp [slot_key, hname, hpath])]
  exact huniq

theorem unique_slots_eraseIdx (l : List CookiePtr) (i : Nat) (huniq : unique_slots l) :
    unique_slots (l.eraseIdx i) :=
  List.Pairwise.sublist (List.eraseIdx_sublist l i) huniq

theorem add_scan_none_elim (c : GstHttpCookie) (l : List CookiePtr)
    (h : add_scan c l = none) : ∀ x ∈ l, same_slot c x.obj = false := by
  induction l with
  | nil => intro x hx; simp at hx
  | cons y ys ih =>
    intro x hx
    unfold add_scan at h
    cases hs : same_slot c y.obj with
    | true => simp [hs] at h
    | false =>
      simp [hs] at h
      rcases List.mem_cons.1 hx with hxy | hxy
      · rw [hxy]; exact hs
      · exact ih h x hxy

theorem add_scan_some (c : GstHttpCookie) (l : List CookiePtr) (i : Nat) (o : CookiePtr)
    (h : add_scan c l = some (i, o)) :
    l[i]? = some o ∧ c.name = o.obj.name ∧ c.path = o.obj.path := by
  induction l generalizing i with
  | nil => simp [add_scan] at h
  | cons y ys ih =>
    unfold add_scan at h
    cases hs : same_slot c y.obj with
    | true =>
      simp [hs] at h
      obtain ⟨h0, hy⟩ := h
      subst h0; subst hy
      exact ⟨by simp, (same_slot_iff _ _).1 hs⟩
    | false =>
      simp [hs] at h
      obtain ⟨a, hrec, ha⟩ := h
      subst ha
      have := ih a hrec
      exact ⟨by simpa using this.1, this.2⟩

theorem unique_slots_append (l : List CookiePtr) (c : CookiePtr)
    (huniq : unique_slots l) (hscan : add_scan c.obj l = none) :
    unique_slots (l ++ [c]) := by
  unfold unique_slots at huniq ⊢
  rw [List.pairwise_append]
  refine ⟨huniq, List.pairwise_singleton _ _, ?_⟩
  intro a ha b hb
  rw [List.mem_singleton.1 hb, same_slot_comm]
  exact add_scan_none_elim _ _ hscan a ha

theorem domains_lookup_mem (t : DomainTable) (d : String) :
    domains_lookup t d = [] ∨ ∃ e ∈ t, e.2 = domains_lookup t d := by
  induction t with
  | nil => exact Or.inl rfl
  | cons e rest ih =>
    obtain ⟨k, v⟩ := e
    by_cases hk : gst_http_str_case_equal k d = true
    · right
      exact ⟨(k, v), List.mem_cons_self _ _, by simp [domains_lookup, hk]⟩
    · have hk0 : gst_http_str_case_equal k d = false := by simpa using hk
      simp only [domains_lookup, hk0, Bool.false_eq_true, if_false]
      rcases ih with h | ⟨e, he, heq⟩
      · exact Or.inl h
      · exact Or.inr ⟨e, List.mem_cons_of_mem _ he, heq⟩

theorem jar_unique_lookup (t : DomainTable) (d : String) (h : jar_unique_slots t) :
    unique_slots (domains_lookup t d) := by
  rcases domains_lookup_mem t d with h0 | ⟨e, he, heq⟩
  · rw [h0]; exact List.Pairwise.nil
  · rw [← heq]; exact h e he

theorem jar_unique_insert (t : DomainTable) (k : String) (v : List CookiePtr)
    (h : jar_unique_slots t) (hv : unique_slots v) :
    jar_unique_slots (domains_insert t k v) := by
  induction t with
  | nil =>
    intro e he
    simp [domains_insert] at he
    subst he; exact hv
  | cons e0 rest ih =>
    obtain ⟨k0, v0⟩ := e0
    have hrest : jar_unique_slots rest := fun e he => h e (List.mem_cons_of_mem _ he)
    by_cases hk : gst_http_str_case_equal k0 k = true
    · intro e he
      simp only [domains_insert, hk, if_true] at he
      rcases List.mem_cons.1 he with heq | hmem
      · subst heq; exact hv
      · exact hrest e hmem
    · have hk0 : gst_http_str_case_equal k0 k = false := by simpa using hk
      intro e he
      simp only [domains_insert, hk0, Bool.false_eq_true, if_false] at he
      rcases List.mem_cons.1 he with heq | hmem
      · subst heq; exact h (k0, v0) (List.mem_cons_self _ _)
      · exact ih hrest e hmem

theorem add_cookie_null_domain (priv : GstHttpCookieJarPrivate) (now : Int) (author : Nat)
    (c : CookiePtr) (hidle : priv.ongoing_operation = false) (hdom : c.obj.domain = none) :
    gst_http_cookie_jar_add_cookie priv now author c = none := by
  simp [gst_http_cookie_jar_add_cookie, gst_http_cookie_jar_check_start_operation, hidle, hdom]

theorem add_cookie_preserves_unique (priv : GstHttpCookieJarPrivate) (now : Int)
    (author : Nat) (c : CookiePtr) (r : GstHttpCookieJarPrivate × List ChangedSignal)
    (huniq : jar_unique_slots priv.domains)
    (hadd : gst_http_cookie_jar_add_cookie priv now author c = some r) :
    jar_unique_slots r.1.domains := by
  cases hflag : priv.ongoing_operation with
  | true =>
    rw [add_cookie_busy priv now author c hflag] at hadd
    cases hadd
    exact huniq
  | false =>
    cases hdom : c.obj.domain with
    | none => rw [add_cookie_null_domain priv now author c hflag hdom] at hadd; cases hadd
    | some d =>
      have hl := jar_unique_lookup priv.domains d huniq
      cases hscan : add_scan c.obj (domains_lookup priv.domains d) with
      | none =>
        cases hexp : cookie_expired now c.obj with
        | true =>
          rw [add_cookie_discard_path priv now author c d hflag hdom hscan hexp] at hadd
          cases hadd
          exact huniq
        | false =>
          rw [add_cookie_append_path priv now author c d hflag hdom hscan hexp] at hadd
          cases hadd
          exact jar_unique_insert _ _ _ huniq (unique_slots_append _ _ hl hscan)
      | some io =>
        obtain ⟨i, o⟩ := io
        obtain ⟨hi, hname, hpath⟩ := add_scan_some _ _ _ _ hscan
        cases hexp : cookie_expired now c.obj with
        | true =>
          rw [add_cookie_expire_path priv now author c d i o hflag hdom hscan hexp] at hadd
          cases hadd
          exact jar_unique_insert _ _ _ huniq (unique_slots_eraseIdx _ _ hl)
        | false =>
          by_cases hval : c.obj.value = o.obj.value
          · rw [add_cookie_swap_path priv now author c d i o hflag hdom hscan hexp hval] at hadd
            cases hadd
            exact jar_unique_insert _ _ _ huniq (unique_slots_set _ i o c hl hi hname hpath)
          · rw [add_cookie_replace_path priv now author c d i o hflag hdom hscan hexp hval]
              at hadd
            cases hadd
            exact jar_unique_insert _ _ _ huniq (unique_slots_set _ i o c hl hi hname hpath)

theorem delete_cookie_preserves_unique (priv : GstHttpCookieJarPrivate) (author : Nat)
    (k : GstHttpCookie) (r : GstHttpCookieJarPrivate × List ChangedSignal)
    (huniq : jar_unique_slots priv.domains)
    (hdel : gst_http_cookie_jar_delete_cookie priv author k = some r) :
    jar_unique_slots r.1.domains := by
  cases hflag : priv.ongoing_operation with
  | false =>
    rw [delete_cookie_idle priv author k hflag] at hdel
    cases hdel
    exact huniq
  | true =>
    cases hdom : k.domain with
    | none =>
      simp [gst_http_cookie_jar_delete_cookie, gst_http_cookie_jar_check_start_operation,
        hflag, hdom] at hdel
    | some d =>
      have hl := jar_unique_lookup priv.domains d huniq
      by_cases hnil : domains_lookup priv.domains d = []
      · rw [delete_cookie_ongoing_miss priv author k d hflag hdom hnil] at hdel
        cases hdel
        exact huniq
      · cases hscan : delete_scan k (domains_lookup priv.domains d) with
        | none =>
          simp [gst_http_cookie_jar_delete_cookie, gst_http_cookie_jar_check_start_operation,
            hflag, hdom, hnil, hscan] at hdel
        | some found =>
          cases found with
          | none =>
            simp [gst_http_cookie_jar_delete_cookie, gst_http_cookie_jar_check_start_operation,
              hflag, hdom, hnil, hscan, gst_http_cookie_jar_finish_operation] at hdel
            rw [← hdel]
            exact huniq
          | some ic =>
            obtain ⟨i, c⟩ := ic
            simp [gst_http_cookie_jar_delete_cookie, gst_http_cookie_jar_check_start_operation,
              hflag, hdom, hnil, hscan, gst_http_cookie_jar_finish_operation,
              gst_http_cookie_jar_changed] at hdel
            rw [← hdel]
            exact jar_unique_insert _ _ _ huniq (unique_slots_eraseIdx _ _ hl)

theorem run_calls_preserves_unique (calls : List JarCall) :
    ∀ (priv s : GstHttpCookieJarPrivate), jar_unique_slots priv.domains →
      run_calls priv calls = some s → jar_unique_slots s.domains := by
  induction calls with
  | nil =>
    intro priv s h hrun
    simp [run_calls] at hrun
    rw [← hrun]; exact h
  | cons call rest ih =>
    intro priv s h hrun
    unfold run_calls at hrun
    cases hstep : run_call priv call with
    | none => simp [hstep] at hrun
    | some priv1 =>
      simp only [hstep] at hrun
      refine ih priv1 s ?_ hrun
      cases call with
      | add now author cookie =>
        cases hr : gst_http_cookie_jar_add_cookie priv now author cookie with
        | none => simp [run_call, hr] at hstep
        | some r =>
          simp [run_call, hr] at hstep
          rw [← hstep]
          exact add_cookie_preserves_unique priv now author cookie r h hr
      | delete author cookie =>
        cases hr : gst_http_cookie_jar_delete_cookie priv author cookie with
        | none => simp [run_call, hr] at hstep
        | some r =>
          simp [run_call, hr] at hstep
          rw [← hstep]
          exact delete_cookie_preserves_unique priv author cookie r h hr

theorem add_cookie_stores (priv : GstHttpCookieJarPrivate) (now : Int) (author : Nat)
    (c : CookiePtr) (d : String)
    (hidle : priv.ongoing_operation = false) (hdom : c.obj.domain = some d)
    (hexp : cookie_expired now c.obj = false)
    (huniq : unique_slots (domains_lookup priv.domains d)) :
    ∃ (r : GstHttpCookieJarPrivate × List ChangedSignal) (i : Nat),
      gst_http_cookie_jar_add_cookie priv now author c = some r ∧
      r.1.ongoing_operation = false ∧
      (domains_lookup r.1.domains d)[i]? = some c ∧
      unique_slots (domains_lookup r.1.domains d) := by
  cases hscan : add_scan c.obj (domains_lookup priv.domains d) with
  | none =>
    refine ⟨_, (domains_lookup priv.domains d).length,
      add_cookie_append_path priv now author c d hidle hdom hscan hexp, hidle, ?_, ?_⟩
    · simp [domains_lookup_insert]
    · simp only [domains_lookup_insert]
      exact unique_slots_append _ _ huniq hscan
  | some io =>
    obtain ⟨i, o⟩ := io
    obtain ⟨hi, hname, hpath⟩ := add_scan_some _ _ _ _ hscan
    have hlt : i < (domains_lookup priv.domains d).length := (List.getElem?_eq_some.1 hi).1
    by_cases hval : c.obj.value = o.obj.value
    · refine ⟨_, i, add_cookie_swap_path priv now author c d i o hidle hdom hscan hexp hval,
        hidle, ?_, ?_⟩
      · simp only [domains_lookup_insert]
        exact List.getElem?_set_self hlt
      · simp only [domains_lookup_insert]
        exact unique_slots_set _ i o c huniq hi hname hpath
    · refine ⟨_, i, add_cookie_replace_path priv now author c d i o hidle hdom hscan hexp hval,
        hidle, ?_, ?_⟩
      · simp only [domains_lookup_insert]
        exact List.getElem?_set_self hlt
      · simp only [domains_lookup_insert]
        exact unique_slots_set _ i o c huniq hi hname hpath

theorem add_cookie_overwrites (priv : GstHttpCookieJarPrivate) (now : Int) (author : Nat)
    (c o : CookiePtr) (d dc : String) (i : Nat)
    (hidle : priv.ongoing_operation = false)
    (huniq : unique_slots (domains_lookup priv.domains d))
    (hstored : (domains_lookup priv.domains d)[i]? = some o)
    (hexp : cookie_expired now c.obj = false)
    (hdom : c.obj.domain = some dc) (hfold : ascii_fold dc = ascii_fold d)
    (hname : c.obj.name = o.obj.name) (hpath : c.obj.path = o.obj.path) :
    ∃ r, gst_http_cookie_jar_add_cookie priv now author c = some r ∧
      domains_lookup r.1.domains d = (domains_lookup priv.domains d).set i c ∧
      cookie_count r.1.domains = cookie_count priv.domains := by
  have hlk : domains_lookup priv.domains dc = domains_lookup priv.domains d :=
    domains_lookup_congr _ _ _ hfold
  have hscan : add_scan c.obj (domains_lookup priv.domains dc) = some (i, o) := by
    rw [hlk]; exact add_scan_unique _ _ _ _ huniq hstored hname hpath
  have hcount := cookie_count_insert priv.domains dc ((domains_lookup priv.domains dc).set i c)
  simp only [List.length_set] at hcount
  by_cases hval : c.obj.value = o.obj.value
  · refine ⟨_, add_cookie_swap_path priv now author c dc i o hidle hdom hscan hexp hval, ?_, ?_⟩
    · simp only [domains_insert_congr _ _ _ _ hfold, hlk]
    · simpa using hcount
  · refine ⟨_, add_cookie_replace_path priv now author c dc i o hidle hdom hscan hexp hval,
      ?_, ?_⟩
    · simp only [domains_insert_congr _ _ _ _ hfold, hlk]
    · simpa using hcount

/-- C15: on an idle jar (whose list of `d1` satisfies the uniqueness invariant), a
cookie `c1` added with domain `d1` and then a cookie `c2` with the same name and
path added with a domain `d2` that equals `d1` up to ASCII case (neither
past-expired): after the first add `c1` is at some position `i` of the list of
`d1`; after the second add the lists of `d1` and `d2` are one list, the list
after the first add with `c2` written at position `i`, and the number of stored
cookies is the same as after the first add. -/
theorem domain_index_case_insensitive (priv : GstHttpCookieJarPrivate)
    (now1 now2 : Int) (author1 author2 : Nat) (c1 c2 : CookiePtr) (d1 d2 : String)
    (hidle : priv.ongoing_operation = false)
    (huniq : unique_slots (domains_lookup priv.domains d1))
    (hd1 : c1.obj.domain = some d1) (hd2 : c2.obj.domain = some d2)
    (hfold : ascii_fold d1 = ascii_fold d2)
    (hv1 : ¬ past_expired now1 c1.obj) (hv2 : ¬ past_expired now2 c2.obj)
    (hname : c2.obj.name = c1.obj.name) (hpath : c2.obj.path = c1.obj.path) :
    ∃ (r1 r2 : GstHttpCookieJarPrivate × List ChangedSignal) (i : Nat),
      gst_http_cookie_jar_add_cookie priv now1 author1 c1 = some r1 ∧
      gst_http_cookie_jar_add_cookie r1.1 now2 author2 c2 = some r2 ∧
      (domains_lookup r1.1.domains d1)[i]? = some c1 ∧
      domains_lookup r2.1.domains d2 = (domains_lookup r1.1.domains d1).set i c2 ∧
      domains_lookup r2.1.domains d1 = domains_lookup r2.1.domains d2 ∧
      cookie_count r2.1.domains = cookie_count r1.1.domains := by
  obtain ⟨r1, i, hadd1, hidle1, hi, huniq1⟩ :=
    add_cookie_stores priv now1 author1 c1 d1 hidle hd1
      (cookie_expired_of_not_past _ _ hv1) huniq
  obtain ⟨r2, hadd2, hlist, hcount⟩ :=
    add_cookie_overwrites r1.1 now2 author2 c2 c1 d1 d2 i hidle1 huniq1 hi
      (cookie_expired_of_not_past _ _ hv2) hd2 hfold.symm hname hpath
  have hsame : domains_lookup r2.1.domains d1 = domains_lookup r2.1.domains d2 :=
    domains_lookup_congr _ _ _ hfold
  exact ⟨r1, r2, i, hadd1, hadd2, hi, hsame ▸ hlist, hsame, hcount⟩

theorem domain_index_case_insensitive_witness :
    ∃ (r1 r2 : GstHttpCookieJarPrivate × List ChangedSignal) (i : Nat),
      gst_http_cookie_jar_add_cookie empty_jar 100 7 ⟨1, sample_cookie⟩ = some r1 ∧
      gst_http_cookie_jar_add_cookie r1.1 200 7 sample_update = some r2 ∧
      (domains_lookup r1.1.domains "Example.com")[i]? = some ⟨1, sample_cookie⟩ ∧
      domains_lookup r2.1.domains "example.COM"
        = (domains_lookup r1.1.domains "Example.com").set i sample_update ∧
      domains_lookup r2.1.domains "Example.com" = domains_lookup r2.1.domains "example.COM" ∧
      cookie_count r2.1.domains = cookie_count r1.1.domains :=
  domain_index_case_insensitive empty_jar 100 200 7 7 ⟨1, sample_cookie⟩ sample_update
    "Example.com" "example.COM" rfl (by decide) rfl rfl (by decide) (by decide) (by decide)
    rfl rfl

/-- A sequence of calls on a fresh jar: two adds to one slot under two spellings of
the domain, an add to a second slot, an add of an expired cookie, and two
deletes. -/
def sample_calls : List JarCall :=
  [JarCall.add 100 7 ⟨1, sample_cookie⟩,
   JarCall.add 100 7 sample_update,
   JarCall.add 100 7 ⟨2, { sample_cookie with name := "lang", value := "en" }⟩,
   JarCall.add 100 7 sample_stale,
   JarCall.delete 7 sample_cookie,
   JarCall.delete 7 sample_update.obj]

/-- C16: starting from a jar with an empty domain index, after every finite sequence
of add and delete calls that returns, every domain list satisfies the
uniqueness invariant: no two cookies at different positions of one domain list
have the same name and the same (nullable) path. -/
theorem uniqueness_invariant (priv0 s : GstHttpCookieJarPrivate) (calls : List JarCall)
    (hempty : priv0.domains = [])
    (hrun : run_calls priv0 calls = some s) :
    jar_unique_slots s.domains ∧
      ∀ e ∈ s.domains, ∀ (i j : Nat) (a b : CookiePtr), i ≠ j →
        e.2[i]? = some a → e.2[j]? = some b →
        ¬ (a.obj.name = b.obj.name ∧ a.obj.path = b.obj.path) := by
  have h0 : jar_unique_slots priv0.domains := by
    rw [hempty]; intro e he; simp at he
  have hs := run_calls_preserves_unique calls priv0 s h0 hrun
  exact ⟨hs, fun e he i j a b hij hi hj =>
    unique_slots_getElem e.2 (hs e he) i j a b hi hj hij⟩

theorem uniqueness_invariant_witness :
    ∃ s, run_calls empty_jar sample_calls = some s ∧
      s.domains = [("Example.com",
        [⟨2, { sample_cookie with name := "lang", value := "en" }⟩])] ∧
      jar_unique_slots s.domains :=
  ⟨_, rfl, by decide,
    (uniqueness_invariant empty_jar _ sample_calls rfl rfl).1⟩

/-! ## The serial table and the serial counter -/

theorem serials_lookup_insert (t : SerialTable) (k v : Nat) :
    serials_lookup (serials_insert t k v) k = some v := by
  induction t with
  | nil => simp [serials_insert, serials_lookup]
  | cons e rest ih =>
    obtain ⟨k0, v0⟩ := e
    by_cases hk : k0 = k
    · simp [serials_insert, serials_lookup, hk]
    · simp [serials_insert, serials_lookup, hk, ih]

theorem add_cookie_serial_cases (priv : GstHttpCookieJarPrivate) (now : Int) (author : Nat)
    (c : CookiePtr) (r : GstHttpCookieJarPrivate × List ChangedSignal)
    (hadd : gst_http_cookie_jar_add_cookie priv now author c = some r) :
    (r.1.serial = priv.serial ∧
        ∀ old, ({ author := author, old_cookie := old, new_cookie := some c } : ChangedSignal)
          ∉ r.2) ∨
      (r.1.serial = (priv.serial + 1) % 2 ^ 32 ∧
        serials_lookup r.1.serials c.addr = some ((priv.serial + 1) % 2 ^ 32)) := by
  cases hflag : priv.ongoing_operation with
  | true =>
    rw [add_cookie_busy priv now author c hflag] at hadd
    cases hadd
    exact Or.inl ⟨rfl, by simp⟩
  | false =>
    cases hdom : c.obj.domain with
    | none => rw [add_cookie_null_domain priv now author c hflag hdom] at hadd; cases hadd
    | some d =>
      cases hscan : add_scan c.obj (domains_lookup priv.domains d) with
      | none =>
        cases hexp : cookie_expired now c.obj with
        | true =>
          rw [add_cookie_discard_path priv now author c d hflag hdom hscan hexp] at hadd
          cases hadd
          exact Or.inl ⟨rfl, by simp⟩
        | false =>
          rw [add_cookie_append_path priv now author c d hflag hdom hscan hexp] at hadd
          cases hadd
          exact Or.inr ⟨rfl, serials_lookup_insert _ _ _⟩
      | some io =>
        obtain ⟨i, o⟩ := io
        cases hexp : cookie_expired now c.obj with
        | true =>
          rw [add_cookie_expire_path priv now author c d i o hflag hdom hscan hexp] at hadd
          cases hadd
          refine Or.inl ⟨rfl, ?_⟩
          intro old
          cases priv.constructed <;> simp
        | false =>
          by_cases hval : c.obj.value = o.obj.value
          · rw [add_cookie_swap_path priv now author c d i o hflag hdom hscan hexp hval] at hadd
            cases hadd
            exact Or.inl ⟨rfl, by simp⟩
          · rw [add_cookie_replace_path priv now author c d i o hflag hdom hscan hexp hval]
              at hadd
            cases hadd
            exact Or.inr ⟨rfl, serials_lookup_insert _ _ _⟩

theorem delete_cookie_serial (priv : GstHttpCookieJarPrivate) (author : Nat)
    (k : GstHttpCookie) (r : GstHttpCookieJarPrivate × List ChangedSignal)
    (hdel : gst_http_cookie_jar_delete_cookie priv author k = some r) :
    r.1.serial = priv.serial := by
  cases hflag : priv.ongoing_operation with
  | false =>
    rw [delete_cookie_idle priv author k hflag] at hdel
    cases hdel
    rfl
  | true =>
    cases hdom : k.domain with
    | none =>
      simp [gst_http_cookie_jar_delete_cookie, gst_http_cookie_jar_check_start_operation,
        hflag, hdom] at hdel
    | some d =>
      by_cases hnil : domains_lookup priv.domains d = []
      · rw [delete_cookie_ongoing_miss priv author k d hflag hdom hnil] at hdel
        cases hdel
        rfl
      · cases hscan : delete_scan k (domains_lookup priv.domains d) with
        | none =>
          simp [gst_http_cookie_jar_delete_cookie, gst_http_cookie_jar_check_start_operation,
            hflag, hdom, hnil, hscan] at hdel
        | some found =>
          cases found with
          | none =>
            simp [gst_http_cookie_jar_delete_cookie, gst_http_cookie_jar_check_start_operation,
              hflag, hdom, hnil, hscan, gst_http_cookie_jar_finish_operation] at hdel
            rw [← hdel]
          | some ic =>
            obtain ⟨i, c⟩ := ic
            simp [gst_http_cookie_jar_delete_cookie, gst_http_cookie_jar_check_start_operation,
              hflag, hdom, hnil, hscan, gst_http_cookie_jar_finish_operation,
              gst_http_cookie_jar_changed] at hdel
            rw [← hdel]

/-- C17, evaluated: on a fresh jar, add of `sid=1` at address 1 and then add of
`sample_refresh` (`sid=1` again, at address 3) leaves the list of `Example.com`
holding the cookie of address 3 and the serial table holding the one entry of
address 1: the stored cookie has no serial, and the cookie that is no longer
stored still has one. -/
theorem serial_table_stale_after_same_value :
    run_calls empty_jar [JarCall.add 100 7 ⟨1, sample_cookie⟩, JarCall.add 100 7 sample_refresh]
      = some { constructed := true, domains := [("Example.com", [sample_refresh])],
               serials := [(1, 1)], serial := 1, ongoing_operation := false } ∧
    sample_refresh.addr = 3 ∧
    serials_lookup [(1, 1)] sample_refresh.addr = none ∧
    serials_lookup [(1, 1)] 1 = some 1 ∧
    (stored_cookies [("Example.com", [sample_refresh])]).map CookiePtr.addr = [3] := by
  decide

theorem serials_remove_mem (t : SerialTable) (k : Nat) (e : Nat × Nat)
    (h : e ∈ serials_remove t k) : e ∈ t := by
  unfold serials_remove at h
  exact (List.mem_filter.1 h).1

theorem serials_insert_mem (t : SerialTable) (k v : Nat) (e : Nat × Nat)
    (h : e ∈ serials_insert t k v) : e ∈ t ∨ e.2 = v := by
  induction t with
  | nil =>
    simp only [serials_insert, List.mem_singleton] at h
    right
    rw [h]
  | cons e0 rest ih =>
    obtain ⟨k0, v0⟩ := e0
    by_cases hk : k0 = k
    · simp only [serials_insert, hk, if_true, List.mem_cons] at h
      rcases h with h | h
      · right; rw [h]
      · left; exact List.mem_cons_of_mem _ h
    · simp only [serials_insert, hk, if_false, List.mem_cons] at h
      rcases h with h | h
      · left; rw [h]; exact List.mem_cons_self _ _
      · rcases ih h with h1 | h1
        · left; exact List.mem_cons_of_mem _ h1
        · right; exact h1

theorem add_cookie_serials_mem (priv : GstHttpCookieJarPrivate) (now : Int) (author : Nat)
    (c : CookiePtr) (r : GstHttpCookieJarPrivate × List ChangedSignal)
    (hadd : gst_http_cookie_jar_add_cookie priv now author c = some r) :
    ∀ e ∈ r.1.serials, e ∈ priv.serials ∨ e.2 = r.1.serial := by
  intro e he
  cases hflag : priv.ongoing_operation with
  | true =>
    rw [add_cookie_busy priv now author c hflag] at hadd
    cases hadd
    exact Or.inl he
  | false =>
    cases hdom : c.obj.domain with
    | none => rw [add_cookie_null_domain priv now author c hflag hdom] at hadd; cases hadd
    | some d =>
      cases hscan : add_scan c.obj (domains_lookup priv.domains d) with
      | none =>
        cases hexp : cookie_expired now c.obj with
        | true =>
          rw [add_cookie_discard_path priv now author c d hflag hdom hscan hexp] at hadd
          cases hadd
          exact Or.inl he
        | false =>
          rw [add_cookie_append_path priv now author c d hflag hdom hscan hexp] at hadd
          cases hadd
          exact serials_insert_mem _ _ _ e he
      | some io =>
        obtain ⟨i, o⟩ := io
        cases hexp : cookie_expired now c.obj with
        | true =>
          rw [add_cookie_expire_path priv now author c d i o hflag hdom hscan hexp] at hadd
          cases hadd
          exact Or.inl (serials_remove_mem _ _ e he)
        | false =>
          by_cases hval : c.obj.value = o.obj.value
          · rw [add_cookie_swap_path priv now author c d i o hflag hdom hscan hexp hval] at hadd
            cases hadd
            exact Or.inl he
          · rw [add_cookie_replace_path priv now author c d i o hflag hdom hscan hexp hval]
              at hadd
            cases hadd
            rcases serials_insert_mem _ _ _ e he with h | h
            · left
              by_cases ha : c.addr ≠ o.addr
              · rw [if_pos ha] at h
                exact serials_remove_mem _ _ e h
              · rw [if_neg ha] at h
                exact h
            · exact Or.inr h

theorem delete_cookie_serials_mem (priv : GstHttpCookieJarPrivate) (author : Nat)
    (k : GstHttpCookie) (r : GstHttpCookieJarPrivate × List ChangedSignal)
    (hdel : gst_http_cookie_jar_delete_cookie priv author k = some r) :
    ∀ e ∈ r.1.serials, e ∈ priv.serials := by
  intro e he
  cases hflag : priv.ongoing_operation with
  | false =>
    rw [delete_cookie_idle priv author k hflag] at hdel
    cases hdel
    exact he
  | true =>
    cases hdom : k.domain with
    | none =>
      simp [gst_http_cookie_jar_delete_cookie, gst_http_cookie_jar_check_start_operation,
        hflag, hdom] at hdel
    | some d =>
      by_cases hnil : domains_lookup priv.domains d = []
      · rw [delete_cookie_ongoing_miss priv author k d hflag hdom hnil] at hdel
        cases hdel
        exact he
      · cases hscan : delete_scan k (domains_lookup priv.domains d) with
        | none =>
          simp [gst_http_cookie_jar_delete_cookie, gst_http_cookie_jar_check_start_operation,
            hflag, hdom, hnil, hscan] at hdel
        | some found =>
          cases found with
          | none =>
            simp [gst_http_cookie_jar_delete_cookie, gst_http_cookie_jar_check_start_operation,
              hflag, hdom, hnil, hscan, gst_http_cookie_jar_finish_operation] at hdel
            rw [← hdel] at he
            exact he
          | some ic =>
            obtain ⟨i, c⟩ := ic
            simp [gst_http_cookie_jar_delete_cookie, gst_http_cookie_jar_check_start_operation,
              hflag, hdom, hnil, hscan, gst_http_cookie_jar_finish_operation,
              gst_http_cookie_jar_changed] at hdel
            rw [← hdel] at he
            exact serials_remove_mem _ _ e he

theorem run_call_serial (priv priv1 : GstHttpCookieJarPrivate) (call : JarCall)
    (h : run_call priv call = some priv1) :
    (priv1.serial = priv.serial ∨ priv1.serial = (priv.serial + 1) % 2 ^ 32) ∧
      ∀ e ∈ priv1.serials, e ∈ priv.serials ∨ e.2 = priv1.serial := by
  cases call with
  | add now author c =>
    cases hr : gst_http_cookie_jar_add_cookie priv now author c with
    | none => simp [run_call, hr] at h
    | some r =>
      simp [run_call, hr] at h
      subst h
      refine ⟨?_, add_cookie_serials_mem priv now author c r hr⟩
      rcases add_cookie_serial_cases priv now author c r hr with h1 | h1
      · exact Or.inl h1.1
      · exact Or.inr h1.1
  | delete author k =>
    cases hr : gst_http_cookie_jar_delete_cookie priv author k with
    | none => simp [run_call, hr] at h
    | some r =>
      simp [run_call, hr] at h
      subst h
      exact ⟨Or.inl (delete_cookie_serial priv author k r hr),
        fun e he => Or.inl (delete_cookie_serials_mem priv author k r hr e he)⟩

theorem run_calls_serial (calls : List JarCall) :
    ∀ priv0 priv : GstHttpCookieJarPrivate,
      (∀ e ∈ priv0.serials, e.2 ≤ priv0.serial) →
      priv0.serial + serial_increments priv0 calls < 2 ^ 32 →
      run_calls priv0 calls = some priv →
      priv.serial = priv0.serial + serial_increments priv0 calls ∧
        ∀ (pre post : List JarCall) (mid : GstHttpCookieJarPrivate),
          calls = pre ++ post → run_calls priv0 pre = some mid →
            mid.serial ≤ priv.serial ∧ ∀ e ∈ mid.serials, e.2 ≤ mid.serial := by
  induction calls with
  | nil =>
    intro priv0 priv hb _ hrun
    simp only [run_calls, Option.some.injEq] at hrun
    subst hrun
    refine ⟨by simp [serial_increments], ?_⟩
    intro pre post mid hsplit hmid
    have hpre : pre = [] := by
      cases pre with
      | nil => rfl
      | cons x xs => simp at hsplit
    subst hpre
    simp only [run_calls, Option.some.injEq] at hmid
    subst hmid
    exact ⟨le_refl _, hb⟩
  | cons call rest ih =>
    intro priv0 priv hb hlt hrun
    cases hstep : run_call priv0 call with
    | none => simp [run_calls, hstep] at hrun
    | some p1 =>
      simp only [run_calls, hstep] at hrun
      simp only [serial_increments, hstep] at hlt ⊢
      obtain ⟨hser, hmem⟩ := run_call_serial priv0 p1 call hstep
      have hp1 : p1.serial = priv0.serial + (if p1.serial = priv0.serial then 0 else 1) := by
        by_cases heq : p1.serial = priv0.serial
        · simp [heq]
        · rw [if_neg heq] at hlt ⊢
          rcases hser with h | h
          · exact absurd h heq
          · rw [h]
            exact Nat.mod_eq_of_lt (by omega)
      have hb1 : ∀ e ∈ p1.serials, e.2 ≤ p1.serial := by
        intro e he
        rcases hmem e he with h | h
        · have := hb e h
          omega
        · omega
      obtain ⟨hfinal, hhist⟩ := ih p1 priv hb1 (by omega) hrun
      refine ⟨by omega, ?_⟩
      intro pre post mid hsplit hmid
      cases pre with
      | nil =>
        simp only [run_calls, Option.some.injEq] at hmid
        subst hmid
        exact ⟨by omega, hb⟩
      | cons x xs =>
        simp only [List.cons_append, List.cons.injEq] at hsplit
        obtain ⟨hx, hrest⟩ := hsplit
        subst hx
        simp only [run_calls, hstep] at hmid
        exact hhist xs post mid hrest hmid

/-- The constructed, idle jar that holds `sample_cookie` with the serial `2 ^ 32 - 1`,
the largest value of a `guint` counter. -/
def wrap_jar : GstHttpCookieJarPrivate :=
  { constructed := true
    domains := [("Example.com", [⟨1, sample_cookie⟩])]
    serials := [(1, 4294967295)]
    serial := 4294967295
    ongoing_operation := false }

/-- The two adds that lead from `empty_jar` to `sample_jar`. -/
def sample_history : List JarCall :=
  [JarCall.add 100 7 ⟨1, sample_cookie⟩,
   JarCall.add 100 7 ⟨2, { sample_cookie with name := "lang", value := "en" }⟩]

/-- C18, as stated, fails: on `wrap_jar`, whose counter has the representable value
`2 ^ 32 - 1`, the add of a new cookie `lang=en` is notified and stores it with
the serial 0; the counter after the add is 0, below the counter before, and the
new serial is below the serial of the cookie stored earlier. -/
theorem serial_counter_wraps :
    wrap_jar.serial < 2 ^ 32 ∧
    (gst_http_cookie_jar_add_cookie wrap_jar 100 7
        ⟨2, { sample_cookie with name := "lang", value := "en" }⟩).map
      (fun r => (r.1.serial, serials_lookup r.1.serials 2, serials_lookup r.1.serials 1,
        r.2.length))
      = some (0, some 0, some 4294967295, 1) ∧
    ¬ (wrap_jar.serial ≤ 0) := by
  decide

/-- After the wrap a bound on the counter alone does not help: two adds on `wrap_jar`
leave the counter at 1, and the cookie stored last (address 3) has the serial
1, below the serial `2 ^ 32 - 1` of the cookie of address 1. -/
theorem serial_after_wrap_below_older :
    (run_calls wrap_jar
        [JarCall.add 100 7 ⟨2, { sample_cookie with name := "lang", value := "en" }⟩,
         JarCall.add 100 7 ⟨3, { sample_cookie with name := "theme", value := "dark" }⟩]).map
      (fun s => (s.serial, serials_lookup s.serials 3, serials_lookup s.serials 1))
      = some (1, some 1, some 4294967295) := by
  decide

/-- C18, amended: take a new jar `priv0` (counter 0, empty serial table) and a sequence
of add and delete calls that leads to the state `priv` and during which the
counter was incremented fewer than `2 ^ 32 - 1` times. Then the counter of `priv`
is the number of increments; the counter after an add on `priv` is the counter
before or the counter before plus one, and the counter after a delete and after
`all_cookies` is the counter before; at every earlier point of the sequence the
counter was at most the counter of `priv` and every serial of the table was at
most the counter of that time; and an add on `priv` that notifies the storing of
its cookie `c` gives `c` the serial counter plus one, strictly greater than
every serial that the table held at any point of the sequence. -/
theorem serial_counter_monotone (priv0 : GstHttpCookieJarPrivate) (calls : List JarCall)
    (priv : GstHttpCookieJarPrivate) (now : Int)
    (author : Nat) (c : CookiePtr) (k : GstHttpCookie)
    (ra rd : GstHttpCookieJarPrivate × List ChangedSignal)
    (hnew_serials : priv0.serials = []) (hnew_serial : priv0.serial = 0)
    (hrun : run_calls priv0 calls = some priv)
    (hlt : serial_increments priv0 calls + 1 < 2 ^ 32)
    (hadd : gst_http_cookie_jar_add_cookie priv now author c = some ra)
    (hdel : gst_http_cookie_jar_delete_cookie priv author k = some rd) :
    priv.serial = serial_increments priv0 calls ∧
      priv.serial ≤ ra.1.serial ∧ ra.1.serial ≤ priv.serial + 1 ∧
      rd.1.serial = priv.serial ∧
      (gst_http_cookie_jar_all_cookies priv).1.serial = priv.serial ∧
      (∀ (pre post : List JarCall) (mid : GstHttpCookieJarPrivate),
        calls = pre ++ post → run_calls priv0 pre = some mid →
          mid.serial ≤ priv.serial ∧ ∀ e ∈ mid.serials, e.2 ≤ mid.serial) ∧
      ((∃ old, ({ author := author, old_cookie := old, new_cookie := some c } : ChangedSignal)
          ∈ ra.2) →
        ra.1.serial = priv.serial + 1 ∧
        serials_lookup ra.1.serials c.addr = some (priv.serial + 1) ∧
        ∀ (pre post : List JarCall) (mid : GstHttpCookieJarPrivate),
          calls = pre ++ post → run_calls priv0 pre = some mid →
            ∀ e ∈ mid.serials, e.2 < priv.serial + 1) := by
  have hb0 : ∀ e ∈ priv0.serials, e.2 ≤ priv0.serial := by
    intro e he
    rw [hnew_serials] at he
    cases he
  obtain ⟨hfinal, hhist⟩ := run_calls_serial calls priv0 priv hb0 (by omega) hrun
  rw [hnew_serial, Nat.zero_add] at hfinal
  have hlt1 : priv.serial + 1 < 2 ^ 32 := by omega
  have hmod : (priv.serial + 1) % 2 ^ 32 = priv.serial + 1 := Nat.mod_eq_of_lt hlt1
  have hcases := add_cookie_serial_cases priv now author c ra hadd
  rw [hmod] at hcases
  refine ⟨hfinal, ?_, ?_, delete_cookie_serial priv author k rd hdel, rfl, hhist, ?_⟩
  · rcases hcases with h | h <;> omega
  · rcases hcases with h | h <;> omega
  · rintro ⟨old, hold⟩
    rcases hcases with h | h
    · exact absurd hold (h.2 old)
    · refine ⟨h.1, h.2, ?_⟩
      intro pre post mid hsplit hmid e he
      obtain ⟨h1, h2⟩ := hhist pre post mid hsplit hmid
      have := h2 e he
      omega

theorem serial_counter_monotone_witness :
    run_calls empty_jar sample_history = some sample_jar ∧
      serial_increments empty_jar sample_history = 2 ∧
      sample_jar.serial = 2 ∧
      (gst_http_cookie_jar_add_cookie sample_jar 100 7 sample_update).map
          (fun r => (r.1.serial, serials_lookup r.1.serials sample_update.addr)) =
        some (3, some 3) ∧
      (∀ (pre post : List JarCall) (mid : GstHttpCookieJarPrivate),
        sample_history = pre ++ post → run_calls empty_jar pre = some mid →
          ∀ e ∈ mid.serials, e.2 < 3) :=
  ⟨by decide, by decide, by decide, by decide,
   ((serial_counter_monotone empty_jar sample_history sample_jar 100 7 sample_update
      sample_cookie
      ({ constructed := true,
         domains := [("Example.com",
           [sample_update, ⟨2, { sample_cookie with name := "lang", value := "en" }⟩])],
         serials := [(2, 2), (3, 3)], serial := 3, ongoing_operation := false },
       [{ author := 7, old_cookie := some ⟨1, sample_cookie⟩,
          new_cookie := some sample_update }])
      (busy_jar, []) rfl rfl (by decide) (by decide) (by decide) (by decide)).2.2.2.2.2.2
        ⟨some ⟨1, sample_cookie⟩, by decide⟩).2.2⟩

/-! ## Cookie construction and max-age -/

theorem set_max_age_frame (now : Int) (cookie : GstHttpCookie) (max_age : Int) :
    (gst_http_cookie_set_max_age now cookie max_age).name = cookie.name ∧
    (gst_http_cookie_set_max_age now cookie max_age).value = cookie.value ∧
    (gst_http_cookie_set_max_age now cookie max_age).domain = cookie.domain ∧
    (gst_http_cookie_set_max_age now cookie max_age).path = cookie.path ∧
    (gst_http_cookie_set_max_age now cookie max_age).secure = cookie.secure ∧
    (gst_http_cookie_set_max_age now cookie max_age).http_only = cookie.http_only := by
  unfold gst_http_cookie_set_max_age
  split
  · simp
  · split <;> simp

theorem set_max_age_expires (now : Int) (cookie : GstHttpCookie) (max_age : Int) :
    (gst_http_cookie_set_max_age now cookie max_age).expires
      = if max_age = -1 then none
        else if max_age = 0 then none
        else some (now + max_age * 1000000) := by
  unfold gst_http_cookie_set_max_age
  split
  · rfl
  · split <;> rfl

/-- C19: `gst_http_cookie_new` returns no cookie exactly when the name or the value is
NULL; when both are present (a NULL domain or path included) it returns a
cookie with the given name, value, domain and path, with secure and http-only
false, and with the expiry that `gst_http_cookie_set_max_age` computes for
`max_age` (on any cookie, at the same clock). -/
theorem cookie_new_contract (now : Int) (name value domain path : Option String)
    (max_age : Int) :
    (gst_http_cookie_new now name value domain path max_age = none ↔
        name = none ∨ value = none) ∧
      (∀ n v, name = some n → value = some v →
        ∃ c, gst_http_cookie_new now name value domain path max_age = some c ∧
          c.name = n ∧ c.value = v ∧ c.domain = domain ∧ c.path = path ∧
          c.secure = false ∧ c.http_only = false ∧
          ∀ c0, c.expires = (gst_http_cookie_set_max_age now c0 max_age).expires) := by
  constructor
  · cases name <;> cases value <;> simp [gst_http_cookie_new]
  · intro n v hn hv
    subst hn; subst hv
    refine ⟨_, rfl, ?_⟩
    have hf := set_max_age_frame now
      { name := n, value := v, domain := domain, path := path,
        expires := none, secure := false, http_only := false } max_age
    refine ⟨hf.1, hf.2.1, hf.2.2.1, hf.2.2.2.1, hf.2.2.2.2.1, hf.2.2.2.2.2, ?_⟩
    intro c0
    unfold cookie_new_internal
    rw [set_max_age_expires, set_max_age_expires]

/-- C20, evaluated: `gst_http_cookie_set_max_age` with the max age 0 passes a NULL
time zone to `g_date_time_new`, which answers NULL, so the expiry becomes
absent, as for the max age -1: the cookie is a session cookie and is not
past-expired at any time. (With the max age 60 at the clock 100 the expiry is
100 plus 60 seconds.) -/
theorem set_max_age_zero_gives_session_cookie :
    (gst_http_cookie_set_max_age 100 sample_cookie 0).expires = none ∧
    (gst_http_cookie_set_max_age 100 sample_refresh.obj 0).expires = none ∧
    (gst_http_cookie_set_max_age 100 sample_cookie (-1)).expires = none ∧
    (gst_http_cookie_set_max_age 100 sample_cookie 60).expires = some (100 + 60 * 1000000) ∧
    cookie_expired 2000000000000000 (gst_http_cookie_set_max_age 100 sample_cookie 0)
      = false := by
  decide

/-! ## Expiry and the jar -/

theorem domains_lookup_insert_ne (t : DomainTable) (k k1 : String) (v : List CookiePtr)
    (hne : ascii_fold k1 ≠ ascii_fold k) :
    domains_lookup (domains_insert t k v) k1 = domains_lookup t k1 := by
  have hk1 : gst_http_str_case_equal k k1 = false := by
    cases h : gst_http_str_case_equal k k1 with
    | false => rfl
    | true => exact absurd ((str_case_equal_iff k k1).1 h).symm hne
  induction t with
  | nil => simp [domains_insert, domains_lookup, hk1]
  | cons e rest ih =>
    obtain ⟨k0, v0⟩ := e
    by_cases hk : gst_http_str_case_equal k0 k = true
    · have h01 : gst_http_str_case_equal k0 k1 = false := by
        cases h : gst_http_str_case_equal k0 k1 with
        | false => rfl
        | true =>
          have e1 := (str_case_equal_iff k0 k).1 hk
          have e2 := (str_case_equal_iff k0 k1).1 h
          exact absurd (e2.symm.trans e1) hne
      simp [domains_insert, domains_lookup, hk, h01]
    · have hk0 : gst_http_str_case_equal k0 k = false := by simpa using hk
      simp only [domains_insert, hk0, Bool.false_eq_true, if_false, domains_lookup, ih]

theorem stored_cookies_insert_sublist (t : DomainTable) (k : String) (v : List CookiePtr)
    (hv : List.Sublist v (domains_lookup t k)) :
    List.Sublist (stored_cookies (domains_insert t k v)) (stored_cookies t) := by
  induction t with
  | nil =>
    simp only [domains_lookup] at hv
    simp [domains_insert, stored_cookies, List.sublist_nil.1 hv]
  | cons e rest ih =>
    obtain ⟨k0, v0⟩ := e
    by_cases hk : gst_http_str_case_equal k0 k = true
    · simp only [domains_lookup, hk, if_true] at hv
      simp only [domains_insert, hk, if_true, stored_cookies]
      exact hv.append_right _
    · have hk0 : gst_http_str_case_equal k0 k = false := by simpa using hk
      simp only [domains_lookup, hk0, Bool.false_eq_true, if_false] at hv
      simp only [domains_insert, hk0, Bool.false_eq_true, if_false, stored_cookies]
      exact (ih hv).append_left _

theorem add_cookie_expired_not_stored (priv : GstHttpCookieJarPrivate) (now : Int)
    (author : Nat) (c : CookiePtr) (d : String)
    (hdom : c.obj.domain = some d) (hexp : cookie_expired now c.obj = true) :
    ∃ r, gst_http_cookie_jar_add_cookie priv now author c = some r ∧
      List.Sublist (stored_cookies r.1.domains) (stored_cookies priv.domains) ∧
      ∀ e ∈ r.2, e.new_cookie = none := by
  cases hflag : priv.ongoing_operation with
  | true =>
    exact ⟨_, add_cookie_busy priv now author c hflag, List.Sublist.refl _, by simp⟩
  | false =>
    cases hscan : add_scan c.obj (domains_lookup priv.domains d) with
    | none =>
      exact ⟨_, add_cookie_discard_path priv now author c d hflag hdom hscan hexp,
        List.Sublist.refl _, by simp⟩
    | some io =>
      obtain ⟨i, o⟩ := io
      refine ⟨_, add_cookie_expire_path priv now author c d i o hflag hdom hscan hexp, ?_, ?_⟩
      · exact stored_cookies_insert_sublist _ _ _ (List.eraseIdx_sublist _ _)
      · intro e he
        cases hc : priv.constructed <;> simp [hc] at he
        rw [he]

theorem add_cookie_valid_stored (priv : GstHttpCookieJarPrivate) (now : Int)
    (author : Nat) (c : CookiePtr) (d : String)
    (hidle : priv.ongoing_operation = false) (hdom : c.obj.domain = some d)
    (hexp : cookie_expired now c.obj = false) :
    ∃ (r : GstHttpCookieJarPrivate × List ChangedSignal) (i : Nat),
      gst_http_cookie_jar_add_cookie priv now author c = some r ∧
      (domains_lookup r.1.domains d)[i]? = some c := by
  cases hscan : add_scan c.obj (domains_lookup priv.domains d) with
  | none =>
    refine ⟨_, (domains_lookup priv.domains d).length,
      add_cookie_append_path priv now author c d hidle hdom hscan hexp, ?_⟩
    simp [domains_lookup_insert]
  | some io =>
    obtain ⟨i, o⟩ := io
    obtain ⟨hi, _, _⟩ := add_scan_some _ _ _ _ hscan
    have hlt : i < (domains_lookup priv.domains d).length := (List.getElem?_eq_some.1 hi).1
    by_cases hval : c.obj.value = o.obj.value
    · refine ⟨_, i, add_cookie_swap_path priv now author c d i o hidle hdom hscan hexp hval, ?_⟩
      simp only [domains_lookup_insert]
      exact List.getElem?_set_self hlt
    · refine ⟨_, i, add_cookie_replace_path priv now author c d i o hidle hdom hscan hexp hval,
        ?_⟩
      simp only [domains_lookup_insert]
      exact List.getElem?_set_self hlt

/-- C21, evaluated: the cookie that `gst_http_cookie_new` makes for the max age 0 has
no expiry at any clock, is not past-expired at a clock long after 1970, and
add on the empty jar stores it and notifies `changed (7, NULL, cookie)`. -/
theorem max_age_zero_cookie_is_stored :
    gst_http_cookie_new 100 (some "sid") (some "1") (some "Example.com") (some "/") 0
      = some sample_cookie ∧
    gst_http_cookie_new 1700000000000000 (some "sid") (some "1") (some "Example.com")
        (some "/") 0
      = some sample_cookie ∧
    sample_cookie.expires = none ∧
    cookie_expired 1700000000000000 sample_cookie = false ∧
    gst_http_cookie_jar_add_cookie empty_jar 1700000000000000 7 ⟨1, sample_cookie⟩
      = some ({ constructed := true, domains := [("Example.com", [⟨1, sample_cookie⟩])],
                serials := [(1, 1)], serial := 1, ongoing_operation := false },
              [⟨7, none, some ⟨1, sample_cookie⟩⟩]) := by
  decide

/-- C22: the expiry test of add, `cookie->expires && date_time_is_past (cookie->expires)`,
holds exactly when the expiry is present and strictly before the clock. On an
idle jar a cookie (with a domain) whose expiry is absent or equal to the clock
fails the test and is stored; a cookie whose expiry is one microsecond before
the clock passes it, and add stores nothing and notifies no new cookie. -/
theorem add_expiry_test (priv : GstHttpCookieJarPrivate) (now : Int) (author : Nat)
    (c : CookiePtr) (d : String)
    (hidle : priv.ongoing_operation = false) (hdom : c.obj.domain = some d) :
    (cookie_expired now c.obj = true ↔ ∃ t, c.obj.expires = some t ∧ t < now) ∧
      (c.obj.expires = none ∨ c.obj.expires = some now →
        cookie_expired now c.obj = false ∧
        ∃ (r : GstHttpCookieJarPrivate × List ChangedSignal) (i : Nat),
          gst_http_cookie_jar_add_cookie priv now author c = some r ∧
          (domains_lookup r.1.domains d)[i]? = some c) ∧
      (c.obj.expires = some (now - 1) →
        cookie_expired now c.obj = true ∧
        ∃ r, gst_http_cookie_jar_add_cookie priv now author c = some r ∧
          List.Sublist (stored_cookies r.1.domains) (stored_cookies priv.domains) ∧
          ∀ e ∈ r.2, e.new_cookie = none) := by
  refine ⟨cookie_expired_iff now c.obj, ?_, ?_⟩
  · intro h
    have hexp : cookie_expired now c.obj = false := by
      rcases h with h | h <;> simp [cookie_expired, date_time_is_past, h]
    exact ⟨hexp, add_cookie_valid_stored priv now author c d hidle hdom hexp⟩
  · intro h
    have hexp : cookie_expired now c.obj = true := by
      simp [cookie_expired, date_time_is_past, h]
    exact ⟨hexp, add_cookie_expired_not_stored priv now author c d hdom hexp⟩

theorem add_expiry_test_witness :
    (cookie_expired 500 sample_refresh.obj = true ↔
        ∃ t, sample_refresh.obj.expires = some t ∧ t < 500) ∧
      (sample_refresh.obj.expires = none ∨ sample_refresh.obj.expires = some 500 →
        cookie_expired 500 sample_refresh.obj = false ∧
        ∃ (r : GstHttpCookieJarPrivate × List ChangedSignal) (i : Nat),
          gst_http_cookie_jar_add_cookie empty_jar 500 7 sample_refresh = some r ∧
          (domains_lookup r.1.domains "Example.com")[i]? = some sample_refresh) ∧
      (sample_refresh.obj.expires = some (500 - 1) →
        cookie_expired 500 sample_refresh.obj = true ∧
        ∃ r, gst_http_cookie_jar_add_cookie empty_jar 500 7 sample_refresh = some r ∧
          List.Sublist (stored_cookies r.1.domains) (stored_cookies empty_jar.domains) ∧
          ∀ e ∈ r.2, e.new_cookie = none) :=
  add_expiry_test empty_jar 500 7 sample_refresh "Example.com" rfl rfl

/-- C23: `gst_http_cookie_copy` returns a cookie equal to its argument on all seven
fields (a NULL path and a NULL expiry included); the argument is a value and
is not changed; and the argument and its copy are `gst_http_cookie_equal` whenever
the path is present. -/
theorem cookie_copy_field_equal (c : GstHttpCookie) :
    (gst_http_cookie_copy c).name = c.name ∧ (gst_http_cookie_copy c).value = c.value ∧
      (gst_http_cookie_copy c).domain = c.domain ∧ (gst_http_cookie_copy c).path = c.path ∧
      (gst_http_cookie_copy c).expires = c.expires ∧
      (gst_http_cookie_copy c).secure = c.secure ∧
      (gst_http_cookie_copy c).http_only = c.http_only ∧
      gst_http_cookie_copy c = c ∧
      (∀ p, c.path = some p → gst_http_cookie_equal c (gst_http_cookie_copy c) = some true) := by
  have h := gst_http_cookie_copy_eq c
  refine ⟨by rw [h], by rw [h], by rw [h], by rw [h], by rw [h], by rw [h], by rw [h], h, ?_⟩
  intro p hp
  rw [h]
  simp [gst_http_cookie_equal, hp]

/-- C24: on an idle jar, add of a cookie `c` (with the domain `d`) that is not
past-expired and matches no cookie of the list of `d` by name and path: the
list of `d` afterwards is the previous list (empty when `d` had no entry) with
`c` appended at the end, and the list of every domain that differs from `d`
after ASCII case folding is unchanged. -/
theorem add_cookie_appends (priv : GstHttpCookieJarPrivate) (now : Int) (author : Nat)
    (c : CookiePtr) (d : String)
    (hidle : priv.ongoing_operation = false) (hdom : c.obj.domain = some d)
    (hvalid : ¬ past_expired now c.obj)
    (hnew : ∀ x ∈ domains_lookup priv.domains d,
      ¬ (x.obj.name = c.obj.name ∧ x.obj.path = c.obj.path)) :
    ∃ r, gst_http_cookie_jar_add_cookie priv now author c = some r ∧
      domains_lookup r.1.domains d = domains_lookup priv.domains d ++ [c] ∧
      ∀ d1, ascii_fold d1 ≠ ascii_fold d →
        domains_lookup r.1.domains d1 = domains_lookup priv.domains d1 := by
  have hexp := cookie_expired_of_not_past now c.obj hvalid
  have hscan := add_scan_none c.obj _ hnew
  refine ⟨_, add_cookie_append_path priv now author c d hidle hdom hscan hexp, ?_, ?_⟩
  · simp only [domains_lookup_insert]
  · intro d1 hd1
    simp only [domains_lookup_insert_ne _ _ _ _ hd1]

theorem add_cookie_appends_witness :
    ∃ r, gst_http_cookie_jar_add_cookie sample_jar 100 7
          ⟨3, { sample_cookie with name := "theme" }⟩ = some r ∧
      domains_lookup r.1.domains "Example.com"
        = domains_lookup sample_jar.domains "Example.com"
            ++ [⟨3, { sample_cookie with name := "theme" }⟩] ∧
      ∀ d1, ascii_fold d1 ≠ ascii_fold "Example.com" →
        domains_lookup r.1.domains d1 = domains_lookup sample_jar.domains d1 :=
  add_cookie_appends sample_jar 100 7 ⟨3, { sample_cookie with name := "theme" }⟩
    "Example.com" rfl rfl (by decide) (by decide)

theorem serials_lookup_remove (t : SerialTable) (k : Nat) :
    serials_lookup (serials_remove t k) k = none := by
  induction t with
  | nil => rfl
  | cons e rest ih =>
    obtain ⟨k0, v0⟩ := e
    by_cases hk : k0 = k
    · simp [serials_remove, hk] at ih ⊢
      exact ih
    · simp [serials_remove, hk, serials_lookup] at ih ⊢
      exact ih

theorem serials_lookup_insert_ne (t : SerialTable) (k k1 v : Nat) (hne : k ≠ k1) :
    serials_lookup (serials_insert t k v) k1 = serials_lookup t k1 := by
  induction t with
  | nil => simp [serials_insert, serials_lookup, hne]
  | cons e rest ih =>
    obtain ⟨k0, v0⟩ := e
    by_cases hk : k0 = k
    · subst hk
      simp [serials_insert, serials_lookup, hne]
    · simp [serials_insert, serials_lookup, hk, ih]

/-- C25: `gst_http_cookie_jar_changed` on a jar that is not constructed gives the same
serial table and serial counter as on the same jar marked constructed, and in
both the table has no entry for `old` when `old` is present and is not `new`,
and `new`, when present, has the incremented counter; a signal is emitted
exactly when the jar is constructed, and then it is the one signal
`changed (author, old, new)`. -/
theorem changed_bookkeeping_ignores_readiness (priv : GstHttpCookieJarPrivate)
    (author : Nat) (old new : Option CookiePtr) :
    (gst_http_cookie_jar_changed { priv with constructed := false } author old new).1.serials
        = (gst_http_cookie_jar_changed { priv with constructed := true } author old new).1.serials ∧
      (gst_http_cookie_jar_changed { priv with constructed := false } author old new).1.serial
        = (gst_http_cookie_jar_changed { priv with constructed := true } author old new).1.serial ∧
      (∀ o, old = some o → new.map CookiePtr.addr ≠ some o.addr →
        serials_lookup (gst_http_cookie_jar_changed priv author old new).1.serials o.addr
          = none) ∧
      (∀ n, new = some n →
        (gst_http_cookie_jar_changed priv author old new).1.serial
          = (priv.serial + 1) % 2 ^ 32 ∧
        serials_lookup (gst_http_cookie_jar_changed priv author old new).1.serials n.addr
          = some ((priv.serial + 1) % 2 ^ 32)) ∧
      (new = none →
        (gst_http_cookie_jar_changed priv author old new).1.serial = priv.serial) ∧
      ((gst_http_cookie_jar_changed priv author old new).2 ≠ [] ↔ priv.constructed = true) ∧
      (priv.constructed = true →
        (gst_http_cookie_jar_changed priv author old new).2
          = [{ author := author, old_cookie := old, new_cookie := new }]) := by
  refine ⟨rfl, rfl, ?_, ?_, ?_, ?_, ?_⟩
  · intro o ho hne
    subst ho
    cases new with
    | none => simp [gst_http_cookie_jar_changed, serials_lookup_remove]
    | some n =>
      have hn : n.addr ≠ o.addr := by simpa using hne
      simp [gst_http_cookie_jar_changed, hn, serials_lookup_insert_ne _ _ _ _ hn,
        serials_lookup_remove]
  · intro n hn
    subst hn
    exact ⟨rfl, by simp [gst_http_cookie_jar_changed, serials_lookup_insert]⟩
  · intro hn
    subst hn
    rfl
  · cases hc : priv.constructed <;> simp [gst_http_cookie_jar_changed, hc]
  · intro hc
    exact changed_signals priv author old new hc

/-- C26: for a max age `m < -1`, `gst_http_cookie_set_max_age` at the clock `now` sets
the expiry to `now` plus `m` seconds, an instant strictly before `now`, so the
cookie is not a session cookie and is past-expired at every clock `now1` from
`now` on; so is the cookie that `gst_http_cookie_new` creates with such a max age,
and add of it (with a domain, on any jar) returns, stores nothing and notifies
no new cookie. -/
theorem negative_max_age_expired (now now1 : Int) (c : GstHttpCookie) (m : Int)
    (hm : m < -1) (hclock : now ≤ now1) :
    (gst_http_cookie_set_max_age now c m).expires = some (now + m * 1000000) ∧
      now + m * 1000000 < now ∧
      past_expired now1 (gst_http_cookie_set_max_age now c m) ∧
      (∀ n v dom path, ∃ c1, gst_http_cookie_new now (some n) (some v) dom path m = some c1 ∧
        c1.expires = some (now + m * 1000000) ∧ past_expired now1 c1) ∧
      (∀ priv author addr d, c.domain = some d →
        ∃ r, gst_http_cookie_jar_add_cookie priv now1 author
              ⟨addr, gst_http_cookie_set_max_age now c m⟩ = some r ∧
          List.Sublist (stored_cookies r.1.domains) (stored_cookies priv.domains) ∧
          ∀ e ∈ r.2, e.new_cookie = none) := by
  have hgen : ∀ c0 : GstHttpCookie,
      (gst_http_cookie_set_max_age now c0 m).expires = some (now + m * 1000000) := by
    intro c0
    rw [set_max_age_expires]
    have h1 : m ≠ -1 := by omega
    have h0 : m ≠ 0 := by omega
    simp [h1, h0]
  have hlt : now + m * 1000000 < now := by omega
  have hpast : ∀ c0 : GstHttpCookie,
      past_expired now1 (gst_http_cookie_set_max_age now c0 m) :=
    fun c0 => ⟨_, hgen c0, by omega⟩
  refine ⟨hgen c, hlt, hpast c, ?_, ?_⟩
  · intro n v dom path
    exact ⟨_, rfl, hgen _, hpast _⟩
  · intro priv author addr d hd
    have hdom : (gst_http_cookie_set_max_age now c m).domain = some d := by
      rw [(set_max_age_frame now c m).2.2.1]; exact hd
    exact add_cookie_expired_not_stored priv now1 author
      ⟨addr, gst_http_cookie_set_max_age now c m⟩ d hdom
      ((cookie_expired_iff now1 _).2 (hpast c))

theorem negative_max_age_expired_witness :
    (gst_http_cookie_set_max_age 100 sample_cookie (-5)).expires
        = some (100 + (-5) * 1000000) ∧
      (100 : Int) + (-5) * 1000000 < 100 ∧
      past_expired 100 (gst_http_cookie_set_max_age 100 sample_cookie (-5)) ∧
      (∀ n v dom path, ∃ c1,
        gst_http_cookie_new 100 (some n) (some v) dom path (-5) = some c1 ∧
        c1.expires = some (100 + (-5) * 1000000) ∧ past_expired 100 c1) ∧
      (∀ priv author addr d, sample_cookie.domain = some d →
        ∃ r, gst_http_cookie_jar_add_cookie priv 100 author
              ⟨addr, gst_http_cookie_set_max_age 100 sample_cookie (-5)⟩ = some r ∧
          List.Sublist (stored_cookies r.1.domains) (stored_cookies priv.domains) ∧
          ∀ e ∈ r.2, e.new_cookie = none) :=
  negative_max_age_expired 100 100 sample_cookie (-5) (by decide) (by decide)

/-! ## Lemmas on the domain hash -/

theorem g_ascii_toupper_eq_zero (b : Nat) : g_ascii_toupper b = 0 ↔ b = 0 := by
  unfold g_ascii_toupper
  split <;> omega

theorem gchar_to_guint_eq_zero (cs : Bool) (b : Nat) : gchar_to_guint cs b = 0 ↔ b = 0 := by
  unfold gchar_to_guint
  split <;> omega

theorem gchar_to_guint_lt (cs : Bool) (b : Nat) (h : b < 256) :
    gchar_to_guint cs b < 2 ^ 32 := by
  unfold gchar_to_guint
  split <;> omega

theorem g_ascii_toupper_lt (b : Nat) (h : b < 256) : g_ascii_toupper b < 256 := by
  unfold g_ascii_toupper
  split <;> omega

theorem chars_bytes_lt (l : List Char) : ∀ b ∈ chars_bytes l, b < 256 := by
  intro b hb
  simp only [chars_bytes, List.mem_flatMap, List.mem_map] at hb
  obtain ⟨c, _, u, _, rfl⟩ := hb
  exact UInt8.toNat_lt_size u

theorem str_case_hash_step_eq (cs : Bool) (H b : Nat) :
    str_case_hash_step cs (H % 2 ^ 32) b
      = (H * 31 + gchar_to_guint cs (g_ascii_toupper b)) % 2 ^ 32 := by
  unfold str_case_hash_step
  generalize gchar_to_guint cs (g_ascii_toupper b) = v
  norm_num
  omega

theorem str_case_hash_loop_eq (cs : Bool) (p : List Nat) (hp : 0 ∉ p) (H : Nat) :
    str_case_hash_loop cs (H % 2 ^ 32) p
      = (p.map (fun b => gchar_to_guint cs (g_ascii_toupper b))).foldl
          (fun acc v => acc * 31 + v) H % 2 ^ 32 := by
  induction p generalizing H with
  | nil => rfl
  | cons b p ih =>
    have hb : b ≠ 0 := fun h => hp (by simp [h])
    have hp2 : 0 ∉ p := fun h => hp (List.mem_cons_of_mem _ h)
    rw [str_case_hash_loop, if_neg hb, str_case_hash_step_eq, ih hp2]
    rfl

theorem str_case_hash_bytes_eq (cs : Bool) (l : List Nat) (hne : l ≠ [])
    (hz : 0 ∉ l) (hlt : ∀ b ∈ l, b < 256) :
    str_case_hash_bytes cs l
      = poly31 (l.map (fun b => gchar_to_guint cs (g_ascii_toupper b))) % 2 ^ 32 := by
  cases l with
  | nil => exact absurd rfl hne
  | cons b p =>
    have hb : b ≠ 0 := fun h => hz (by simp [h])
    have hp : 0 ∉ p := fun h => hz (List.mem_cons_of_mem _ h)
    have hv : gchar_to_guint cs (g_ascii_toupper b) ≠ 0 := by
      rw [Ne, gchar_to_guint_eq_zero, g_ascii_toupper_eq_zero]
      exact hb
    have hlt2 : gchar_to_guint cs (g_ascii_toupper b) < 2 ^ 32 :=
      gchar_to_guint_lt cs _ (g_ascii_toupper_lt b (hlt b (by simp)))
    simp only [str_case_hash_bytes]
    rw [if_pos hv]
    have hmod := str_case_hash_loop_eq cs p hp (gchar_to_guint cs (g_ascii_toupper b))
    rw [Nat.mod_eq_of_lt hlt2] at hmod
    rw [hmod]
    simp [poly31]

theorem str_case_hash_loop_congr (cs : Bool) (l1 l2 : List Nat)
    (h : l1.map g_ascii_toupper = l2.map g_ascii_toupper) (h0 : Nat) :
    str_case_hash_loop cs h0 l1 = str_case_hash_loop cs h0 l2 := by
  induction l1 generalizing l2 h0 with
  | nil =>
    cases l2 with
    | nil => rfl
    | cons b p => simp at h
  | cons b1 p1 ih =>
    cases l2 with
    | nil => simp at h
    | cons b2 p2 =>
      simp only [List.map_cons, List.cons.injEq] at h
      obtain ⟨hb, hp⟩ := h
      have hz : b1 = 0 ↔ b2 = 0 := by
        rw [← g_ascii_toupper_eq_zero b1, ← g_ascii_toupper_eq_zero b2, hb]
      simp only [str_case_hash_loop, str_case_hash_step, hb, hz]
      rw [ih p2 hp]

theorem str_case_hash_bytes_congr (cs : Bool) (l1 l2 : List Nat)
    (h : l1.map g_ascii_toupper = l2.map g_ascii_toupper) :
    str_case_hash_bytes cs l1 = str_case_hash_bytes cs l2 := by
  cases l1 with
  | nil =>
    cases l2 with
    | nil => rfl
    | cons b p => simp at h
  | cons b1 p1 =>
    cases l2 with
    | nil => simp at h
    | cons b2 p2 =>
      simp only [List.map_cons, List.cons.injEq] at h
      obtain ⟨hb, hp⟩ := h
      simp only [str_case_hash_bytes, hb]
      rw [str_case_hash_loop_congr cs p1 p2 hp]

theorem toLower_toNat_upper (c : Char) (h : 65 ≤ c.toNat ∧ c.toNat ≤ 90) :
    c.toLower = Char.ofNat (c.toNat + 32) := by
  unfold Char.toLower
  simp only [ge_iff_le]
  rw [if_pos h]

theorem toLower_not_upper (c : Char) (h : ¬ (65 ≤ c.toNat ∧ c.toNat ≤ 90)) :
    c.toLower = c := by
  unfold Char.toLower
  simp only [ge_iff_le]
  rw [if_neg h]

theorem ofNat_add_32_toNat (n : Nat) (h : 65 ≤ n ∧ n ≤ 90) :
    (Char.ofNat (n + 32)).toNat = n + 32 := by
  obtain ⟨h1, h2⟩ := h
  interval_cases n <;> rfl

theorem letter_pair_bytes (n : Nat) (h : 65 ≤ n ∧ n ≤ 90) :
    (chars_bytes [Char.ofNat n]).map g_ascii_toupper
      = (chars_bytes [Char.ofNat (n + 32)]).map g_ascii_toupper := by
  obtain ⟨h1, h2⟩ := h
  interval_cases n <;> decide

theorem char_bytes_congr (c1 c2 : Char) (h : c1.toLower = c2.toLower) :
    (chars_bytes [c1]).map g_ascii_toupper = (chars_bytes [c2]).map g_ascii_toupper := by
  by_cases h1 : 65 ≤ c1.toNat ∧ c1.toNat ≤ 90
  · by_cases h2 : 65 ≤ c2.toNat ∧ c2.toNat ≤ 90
    · rw [toLower_toNat_upper c1 h1, toLower_toNat_upper c2 h2] at h
      have hn := congrArg Char.toNat h
      rw [ofNat_add_32_toNat _ h1, ofNat_add_32_toNat _ h2] at hn
      have hc : c1 = c2 := by
        rw [← Char.ofNat_toNat c1, ← Char.ofNat_toNat c2]
        congr 1
        omega
      rw [hc]
    · rw [toLower_toNat_upper c1 h1, toLower_not_upper c2 h2] at h
      rw [← h]
      nth_rewrite 1 [← Char.ofNat_toNat c1]
      exact letter_pair_bytes _ h1
  · by_cases h2 : 65 ≤ c2.toNat ∧ c2.toNat ≤ 90
    · rw [toLower_not_upper c1 h1, toLower_toNat_upper c2 h2] at h
      rw [h]
      nth_rewrite 2 [← Char.ofNat_toNat c2]
      exact (letter_pair_bytes _ h2).symm
    · rw [toLower_not_upper c1 h1, toLower_not_upper c2 h2] at h
      rw [h]

theorem chars_bytes_cons (c : Char) (l : List Char) :
    chars_bytes (c :: l) = chars_bytes [c] ++ chars_bytes l := by
  simp [chars_bytes]

theorem chars_bytes_congr (l1 l2 : List Char)
    (h : l1.map Char.toLower = l2.map Char.toLower) :
    (chars_bytes l1).map g_ascii_toupper = (chars_bytes l2).map g_ascii_toupper := by
  induction l1 generalizing l2 with
  | nil =>
    cases l2 with
    | nil => rfl
    | cons c l => simp at h
  | cons c1 l1 ih =>
    cases l2 with
    | nil => simp at h
    | cons c2 l2 =>
      simp only [List.map_cons, List.cons.injEq] at h
      rw [chars_bytes_cons c1, chars_bytes_cons c2, List.map_append, List.map_append,
        char_bytes_congr c1 c2 h.1, ih l2 h.2]

theorem chars_bytes_ne_nil (l : List Char) (h : l ≠ []) : chars_bytes l ≠ [] := by
  cases l with
  | nil => exact absurd rfl h
  | cons c l =>
    intro hnil
    have hlen := congrArg List.length hnil
    rw [chars_bytes_cons] at hlen
    simp only [chars_bytes, List.flatMap_cons, List.flatMap_nil, List.append_nil,
      List.length_append, List.length_map, String.length_utf8EncodeChar,
      List.length_nil] at hlen
    have := Char.utf8Size_pos c
    omega

theorem gchar_to_guint_ascii (cs : Bool) (l : List Nat)
    (h : cs = false ∨ ∀ b ∈ l, b < 128) :
    l.map (fun b => gchar_to_guint cs (g_ascii_toupper b)) = l.map g_ascii_toupper := by
  apply List.map_congr_left
  intro b hb
  unfold gchar_to_guint
  rcases h with h | h
  · simp [h]
  · have h1 := h b hb
    have h2 : g_ascii_toupper b < 128 := by
      unfold g_ascii_toupper
      split <;> omega
    rw [if_neg (by omega)]

/-- A key outside ASCII on a platform where `char` is signed: the bytes of the key enter
the hash sign-extended, so the hash differs from the polynomial of the bytes read as
numbers below 256. -/
theorem str_case_hash_signed_char_sample :
    c_bytes "\u00e9" = [195, 169]
    ∧ gst_http_str_case_hash true "\u00e9" = 4294965318
    ∧ gst_http_str_case_hash false "\u00e9" = 6214
    ∧ poly31 ((c_bytes "\u00e9").map g_ascii_toupper) % 2 ^ 32 = 6214 := by
  decide

/-- C31: the domain hash is consistent with the domain equality. Two keys that
`gst_http_str_case_equal` accepts have the same `gst_http_str_case_hash`, for all
strings and whatever the signedness of `char`. The hash of a non-empty key is the
base-31 polynomial, modulo 2^32, of its ASCII-uppercased bytes converted to `guint`;
for an ASCII key, and for every key where `char` is unsigned, the converted values
are the uppercased bytes themselves. The hash of the empty string is 0. -/
theorem str_case_hash_consistent :
    (∀ (char_signed : Bool) (a b : String), gst_http_str_case_equal a b = true →
        gst_http_str_case_hash char_signed a = gst_http_str_case_hash char_signed b)
    ∧ (∀ (char_signed : Bool) (key : String), key ≠ "" → 0 ∉ c_bytes key →
        gst_http_str_case_hash char_signed key
          = poly31 ((c_bytes key).map
              (fun b => gchar_to_guint char_signed (g_ascii_toupper b))) % 2 ^ 32)
    ∧ (∀ (char_signed : Bool) (key : String),
        (char_signed = false ∨ ∀ b ∈ c_bytes key, b < 128) →
        (c_bytes key).map (fun b => gchar_to_guint char_signed (g_ascii_toupper b))
          = (c_bytes key).map g_ascii_toupper)
    ∧ (∀ char_signed : Bool, gst_http_str_case_hash char_signed "" = 0) := by
  refine ⟨?_, ?_, ?_, ?_⟩
  · intro cs a b h
    rw [str_case_equal_iff] at h
    exact str_case_hash_bytes_congr cs _ _ (chars_bytes_congr _ _ h)
  · intro cs key hne hz
    have hd : key.data ≠ [] := by
      intro hd
      apply hne
      cases key
      simp only at hd
      rw [hd]
    exact str_case_hash_bytes_eq cs _ (chars_bytes_ne_nil _ hd) hz (chars_bytes_lt _)
  · intro cs key h
    exact gchar_to_guint_ascii cs _ h
  · intro cs
    rfl

theorem str_case_hash_consistent_witness :
    gst_http_str_case_equal "Example.COM" "example.com" = true
    ∧ gst_http_str_case_hash true "Example.COM" = gst_http_str_case_hash true "example.com"
    ∧ gst_http_str_case_hash true "example.com"
        = poly31 ((c_bytes "example.com").map
            (fun b => gchar_to_guint true (g_ascii_toupper b))) % 2 ^ 32
    ∧ gst_http_str_case_hash true "example.com" = 209901245 :=
  ⟨by decide,
   str_case_hash_consistent.1 true "Example.COM" "example.com" (by decide),
   str_case_hash_consistent.2.1 true "example.com" (by decide) (by decide),
   by decide⟩

end GstHttp

/-!
# Markup utilities

A shallow embedding of the string functions of `gst-libs/gst/pbutils/markup-utils.c`.
A C string is the list of its characters, without the terminating NUL. The
functions look for the ASCII strings `&lt;`, `&gt;`, `<`, `>` and newline only,
and a byte of these never lies inside a multi-byte UTF-8 sequence, so walking
the characters is the same as walking the bytes. The texts are cue texts, far
shorter than `2 ^ 32` bytes, so a `guint` holds their `strlen`.
-/

namespace GstMarkup

/-! ## strip_trailing_newlines -/

/-- The loop of `strip_trailing_newlines`, for a non-NULL `txt`:
`while (len > 1 && txt[len - 1] == '\n') { txt[len - 1] = '\0'; --len; }`.
Writing the NUL at `len - 1` cuts the string to its first `len - 1` characters. -/
def strip_trailing_newlines_loop (txt : List Char) : Nat → List Char
  | 0 => txt
  | len + 1 =>
      if 1 < len + 1 ∧ txt[len]? = some '\n' then
        strip_trailing_newlines_loop (txt.take len) len
      else txt

/-- The function `strip_trailing_newlines` on a non-NULL string: `len = strlen (txt)`,
then the loop. -/
def strip_trailing_newlines (txt : List Char) : List Char :=
  strip_trailing_newlines_loop txt txt.length

theorem take_append_last (txt : List Char) (n : Nat) (c : Char)
    (hlen : txt.length = n + 1) (hc : txt[n]? = some c) : txt = txt.take n ++ [c] := by
  have h := List.take_succ (l := txt) (n := n)
  rw [hc, List.take_of_length_le (by omega)] at h
  simpa using h

theorem strip_loop_spec (len : Nat) :
    ∀ txt : List Char, txt.length = len →
      ∃ k, txt = strip_trailing_newlines_loop txt len ++ List.replicate k '\n' ∧
        ((strip_trailing_newlines_loop txt len).length ≤ 1 ∨
          (strip_trailing_newlines_loop txt len).getLast? ≠ some '\n') ∧
        (0 < k → strip_trailing_newlines_loop txt len ≠ []) := by
  induction len with
  | zero =>
    intro txt _
    exact ⟨0, by simp [strip_trailing_newlines_loop], Or.inl (by
      simp [strip_trailing_newlines_loop]; omega), by omega⟩
  | succ n ih =>
    intro txt hlen
    by_cases hcond : 1 < n + 1 ∧ txt[n]? = some '\n'
    · have htake : (txt.take n).length = n := by simp [List.length_take]; omega
      obtain ⟨k, hk, hprop, hne⟩ := ih (txt.take n) htake
      have hsplit := take_append_last txt n '\n' hlen hcond.2
      have hloop : strip_trailing_newlines_loop txt (n + 1)
          = strip_trailing_newlines_loop (txt.take n) n := by
        simp only [strip_trailing_newlines_loop, hcond, and_self, if_true]
      rw [hloop]
      refine ⟨k + 1, ?_, hprop, ?_⟩
      · rw [List.replicate_succ', ← List.append_assoc, ← hk]
        exact hsplit
      · intro _
        by_cases hk0 : 0 < k
        · exact hne hk0
        · have hkz : k = 0 := by omega
          subst hkz
          simp only [List.replicate_zero, List.append_nil] at hk
          rw [← hk]
          intro hnil
          rw [hnil] at htake
          simp at htake
          omega
    · have hloop : strip_trailing_newlines_loop txt (n + 1) = txt := by
        simp only [strip_trailing_newlines_loop, hcond, if_false]
      rw [hloop]
      refine ⟨0, by simp, ?_, by omega⟩
      by_cases h1 : 1 < n + 1
      · right
        rw [List.getLast?_eq_getElem?, hlen]
        intro hlast
        exact hcond ⟨h1, by simpa using hlast⟩
      · left; omega

theorem strip_spec (s : List Char) :
    ∃ k, s = strip_trailing_newlines s ++ List.replicate k '\n' ∧
      ((strip_trailing_newlines s).length ≤ 1 ∨
        (strip_trailing_newlines s).getLast? ≠ some '\n') ∧
      (0 < k → strip_trailing_newlines s ≠ []) :=
  strip_loop_spec s.length s rfl

theorem strip_fixed (r : List Char)
    (h : r.length ≤ 1 ∨ r.getLast? ≠ some '\n') : strip_trailing_newlines r = r := by
  unfold strip_trailing_newlines
  cases hlen : r.length with
  | zero => rfl
  | succ n =>
    have hcond : ¬ (1 < n + 1 ∧ r[n]? = some '\n') := by
      rintro ⟨h1, h2⟩
      rcases h with h | h
      · omega
      · apply h
        rw [List.getLast?_eq_getElem?, hlen]
        simpa using h2
    simp only [strip_trailing_newlines_loop, hcond, if_false]

theorem getLast?_append_replicate (r : List Char) (j : Nat) (hj : 0 < j) :
    (r ++ List.replicate j '\n').getLast? = some '\n' := by
  obtain ⟨i, rfl⟩ : ∃ i, j = i + 1 := ⟨j - 1, by omega⟩
  rw [List.replicate_succ', ← List.append_assoc, List.getLast?_concat]

/-- C30: for every string `s`, `strip_trailing_newlines s` is `s` without a run of
newlines at its end; it has length at most 1 or does not end in a newline; no
longer beginning of `s` has that property; when `s` has a character other than
a newline the result does not end in a newline; a non-empty string of newlines
only becomes the one newline; the empty string stays empty; and applying the
function again changes nothing. -/
theorem strip_trailing_newlines_longest (s : List Char) :
    (∃ k, s = strip_trailing_newlines s ++ List.replicate k '\n') ∧
      ((strip_trailing_newlines s).length ≤ 1 ∨
        (strip_trailing_newlines s).getLast? ≠ some '\n') ∧
      (∀ p t : List Char, s = p ++ t → (p.length ≤ 1 ∨ p.getLast? ≠ some '\n') →
        p.length ≤ (strip_trailing_newlines s).length) ∧
      ((∃ c ∈ s, c ≠ '\n') → (strip_trailing_newlines s).getLast? ≠ some '\n') ∧
      (s ≠ [] → (∀ c ∈ s, c = '\n') → strip_trailing_newlines s = ['\n']) ∧
      strip_trailing_newlines [] = [] ∧
      strip_trailing_newlines (strip_trailing_newlines s) = strip_trailing_newlines s := by
  obtain ⟨k, hk, hprop, hne⟩ := strip_spec s
  generalize hr : strip_trailing_newlines s = r at hk hprop hne ⊢
  have hsingle : r.length ≤ 1 → r.getLast? = some '\n' → r = ['\n'] := by
    intro hl hlast
    match r, hl, hlast with
    | [c], _, hlast => simp at hlast; rw [hlast]
  refine ⟨⟨k, hk⟩, hprop, ?_, ?_, ?_, rfl, ?_⟩
  · intro p t hpt hp
    by_contra hgt
    have hgt1 : r.length < p.length := by omega
    have hlen : p.length ≤ r.length + k := by
      have := congrArg List.length hk
      rw [hpt] at this
      simp at this
      omega
    have hp_eq : p = r ++ List.replicate (p.length - r.length) '\n' := by
      have h1 : p = (p ++ t).take p.length := by simp
      rw [← hpt, hk, List.take_append_eq_append_take] at h1
      rw [List.take_of_length_le (by omega), List.take_replicate] at h1
      have hmin : min (p.length - r.length) k = p.length - r.length := by omega
      rw [hmin] at h1
      exact h1
    have hr_ne : r ≠ [] := hne (by omega)
    have hr_len : 0 < r.length := List.length_pos.2 hr_ne
    have hlast : p.getLast? = some '\n' := by
      rw [hp_eq]; exact getLast?_append_replicate r _ (by omega)
    rcases hp with hp | hp
    · omega
    · exact hp hlast
  · rintro ⟨c, hc, hcn⟩
    rcases hprop with hl | hl
    · intro hlast
      have hr1 := hsingle hl hlast
      rw [hk, hr1] at hc
      simp at hc
      rcases hc with hc | hc
      · exact hcn hc
      · exact hcn hc.2
    · exact hl
  · intro hs hall
    have hall_r : ∀ c ∈ r, c = '\n' := by
      intro c hc
      apply hall
      rw [hk]
      exact List.mem_append_left _ hc
    have hr_ne : r ≠ [] := by
      intro hnil
      by_cases hk0 : 0 < k
      · exact hne hk0 hnil
      · have : k = 0 := by omega
        subst this
        rw [hnil] at hk
        simp at hk
        exact hs hk
    have hlast : r.getLast? = some '\n' := by
      obtain ⟨ys, c, hyc⟩ : ∃ ys c, r = ys ++ [c] := by
        rcases List.eq_nil_or_concat r with h | ⟨ys, c, h⟩
        · exact absurd h hr_ne
        · exact ⟨ys, c, by simpa using h⟩
      have hc := hall_r c (by rw [hyc]; simp)
      rw [hyc, hc, List.getLast?_concat]
    rcases hprop with hl | hl
    · exact hsingle hl hlast
    · exact absurd hlast hl
  · exact strip_fixed r hprop

/-! ## subrip_remove_unhandled_tags -/

/-- The string `&lt;`. -/
def lt_entity : List Char := ['&', 'l', 't', ';']

/-- The string `&gt;`. -/
def gt_entity : List Char := ['&', 'g', 't', ';']

/-- The test `strncmp (pos, "&lt;", 4) == 0`. -/
def starts_lt (pos : List Char) : Bool :=
  decide (pos.take 4 = lt_entity)

/-- The call `strstr (s, "&gt;")`: the offset of the first occurrence, if any. -/
def strstr_gt : List Char → Option Nat
  | [] => none
  | c :: tl =>
      if (c :: tl).take 4 = gt_entity then some 0
      else (strstr_gt tl).map (fun k => k + 1)

/-- The test of `subrip_remove_unhandled_tag` on `*tag`, negated: the character is an
ASCII letter when `g_ascii_tolower` of it lies between `a` and `z`. -/
def is_ascii_letter (c : Char) : Bool :=
  decide ('a' ≤ c.toLower ∧ c.toLower ≤ 'z')

/-- The function `subrip_remove_unhandled_tag (start, stop)`, with `stop` as an offset
from `start`: `none` for FALSE; for TRUE the text at `start` after
`memmove (start, stop, strlen (stop) + 1)`. -/
def subrip_remove_unhandled_tag (start : List Char) (stop : Nat) : Option (List Char) :=
  let tag := start.drop 4
  let tag := if tag.head? = some '/' then tag.drop 1 else tag
  match tag.head? with
  | none => none
  | some c => if is_ascii_letter c then some (start.drop stop) else none

/-- The body of the loop of `subrip_remove_unhandled_tags` at `pos`: some new text at
`pos` when the tag there is removed, `none` when the text is left alone. -/
def remove_at (pos : List Char) : Option (List Char) :=
  if starts_lt pos then
    match strstr_gt (pos.drop 4) with
    | some k => subrip_remove_unhandled_tag pos (4 + k + 4)
    | none => none
  else none

/-- One iteration of the `for` loop, on the text before `pos` and the text from `pos`
on: `none` when `*pos` is the NUL; after a removal `--pos` and `++pos` leave the
position where it was; otherwise `++pos` moves over one character. -/
def remove_tags_step (kept rest : List Char) : Option (List Char × List Char) :=
  match rest with
  | [] => none
  | c :: tl =>
      match remove_at (c :: tl) with
      | some rest1 => some (kept, rest1)
      | none => some (kept ++ [c], tl)

/-- The `for` loop, run for at most `fuel` iterations; `none` when they do not
suffice. -/
def remove_tags_loop : Nat → List Char → List Char → Option (List Char)
  | 0, _, _ => none
  | fuel + 1, kept, rest =>
      match remove_tags_step kept rest with
      | none => some (kept ++ rest)
      | some (kept1, rest1) => remove_tags_loop fuel kept1 rest1

/-- The function `subrip_remove_unhandled_tags` on a non-NULL string: the loop from the
start of the text, with one iteration more than the text has characters. -/
def subrip_remove_unhandled_tags (txt : List Char) : Option (List Char) :=
  remove_tags_loop (txt.length + 1) [] txt

/-- The relation between the text at the scan position and what the loop leaves of
it: at the end nothing; a character over which the loop moves is kept; after a
removal the loop goes on with the text that `remove_at` returns. -/
inductive Removes : List Char → List Char → Prop
  | done : Removes [] []
  | keep (c : Char) (tl out : List Char) :
      remove_at (c :: tl) = none → Removes tl out → Removes (c :: tl) (c :: out)
  | drop (rest rest1 out : List Char) :
      remove_at rest = some rest1 → Removes rest1 out → Removes rest out

theorem starts_lt_iff (s : List Char) :
    starts_lt s = true ↔ s = lt_entity ++ s.drop 4 := by
  unfold starts_lt
  rw [decide_eq_true_eq]
  constructor
  · intro h
    have := List.take_append_drop 4 s
    rw [h] at this
    exact this.symm
  · intro h
    rw [h]
    simp [lt_entity]

theorem strstr_gt_some (u : List Char) (k : Nat) (h : strstr_gt u = some k) :
    ∃ a b, u = a ++ gt_entity ++ b ∧ a.length = k := by
  induction u generalizing k with
  | nil => simp [strstr_gt] at h
  | cons c tl ih =>
    unfold strstr_gt at h
    by_cases hc : (c :: tl).take 4 = gt_entity
    · simp only [hc, if_true, Option.some.injEq] at h
      refine ⟨[], (c :: tl).drop 4, ?_, by simpa using h⟩
      have := List.take_append_drop 4 (c :: tl)
      rw [hc] at this
      simpa using this.symm
    · simp only [hc, if_false] at h
      cases hrec : strstr_gt tl with
      | none => simp [hrec] at h
      | some j =>
        simp [hrec] at h
        obtain ⟨a, b, hab, hlen⟩ := ih j hrec
        exact ⟨c :: a, b, by simp [hab], by simp [hlen, h]⟩

theorem remove_at_some (s s1 : List Char) (h : remove_at s = some s1) :
    ∃ mid, s = lt_entity ++ mid ++ gt_entity ++ s1 := by
  unfold remove_at at h
  by_cases hlt : starts_lt s = true
  · simp only [hlt, if_true] at h
    cases hgt : strstr_gt (s.drop 4) with
    | none => simp [hgt] at h
    | some k =>
      simp only [hgt] at h
      obtain ⟨a, b, hab, hlen⟩ := strstr_gt_some _ _ hgt
      have hs1 : s1 = s.drop (4 + k + 4) := by
        unfold subrip_remove_unhandled_tag at h
        simp only at h
        split at h
        · simp at h
        · split at h
          · simpa using h.symm
          · simp at h
      have hs := (starts_lt_iff s).1 hlt
      refine ⟨a, ?_⟩
      have hdrop : s.drop (4 + k + 4) = b := by
        have h1 : s.drop (4 + k + 4) = (s.drop 4).drop (k + 4) := by
          rw [List.drop_drop, Nat.add_assoc]
        rw [h1, hab]
        have h2 : (a ++ gt_entity ++ b).drop (k + 4) = b := by
          have hl : (a ++ gt_entity).length = k + 4 := by simp [hlen, gt_entity]
          rw [← hl, List.drop_left]
        exact h2
      rw [hs1, hdrop]
      rw [hs, hab]
      simp [List.append_assoc]
  · have hf : starts_lt s = false := by simpa using hlt
    simp [hf] at h

theorem remove_at_length (s s1 : List Char) (h : remove_at s = some s1) :
    s1.length < s.length := by
  obtain ⟨mid, hs⟩ := remove_at_some s s1 h
  rw [hs]
  simp [lt_entity, gt_entity]
  omega

theorem remove_tags_loop_sound (fuel : Nat) :
    ∀ kept rest : List Char, rest.length < fuel →
      ∃ out, remove_tags_loop fuel kept rest = some (kept ++ out) ∧ Removes rest out := by
  induction fuel with
  | zero => intro kept rest h; omega
  | succ n ih =>
    intro kept rest hlen
    cases rest with
    | nil => exact ⟨[], by simp [remove_tags_loop, remove_tags_step], Removes.done⟩
    | cons c tl =>
      cases hr : remove_at (c :: tl) with
      | none =>
        obtain ⟨out, hloop, hrem⟩ := ih (kept ++ [c]) tl (by simp at hlen; omega)
        refine ⟨c :: out, ?_, Removes.keep c tl out hr hrem⟩
        simp [remove_tags_loop, remove_tags_step, hr, hloop]
      | some rest1 =>
        have hshort := remove_at_length _ _ hr
        obtain ⟨out, hloop, hrem⟩ := ih kept rest1 (by omega)
        refine ⟨out, ?_, Removes.drop _ rest1 out hr hrem⟩
        simp [remove_tags_loop, remove_tags_step, hr, hloop]

theorem removes_sublist (rest out : List Char) (h : Removes rest out) :
    List.Sublist out rest := by
  induction h with
  | done => exact List.Sublist.slnil
  | keep c tl out _ _ ih => exact List.Sublist.cons₂ c ih
  | drop rest rest1 out hr _ ih =>
    obtain ⟨mid, hs⟩ := remove_at_some rest rest1 hr
    rw [hs]
    exact ih.trans (List.sublist_append_right _ _)

/-- C29: `subrip_remove_unhandled_tags` returns on every input: an iteration of its loop
either moves the position over one character and leaves the text as it is, or
keeps the position and cuts a non-empty piece out of the text at the position,
so as many iterations as the text has characters, and one for the exit,
suffice; the output is a subsequence of the input (the input with pieces
deleted) and is not longer than the input. -/
theorem remove_unhandled_tags_terminates (txt : List Char) :
    (∃ out, subrip_remove_unhandled_tags txt = some out ∧ List.Sublist out txt ∧
        out.length ≤ txt.length) ∧
      (∀ kept rest kept1 rest1 : List Char,
        remove_tags_step kept rest = some (kept1, rest1) →
          (kept1.length = kept.length + 1 ∧ kept1 ++ rest1 = kept ++ rest) ∨
          (kept1 = kept ∧ (kept1 ++ rest1).length < (kept ++ rest).length ∧
            ∃ removed, removed ≠ [] ∧ rest = removed ++ rest1)) ∧
      (∀ (fuel : Nat) (kept rest : List Char), rest.length < fuel →
        ∃ out, remove_tags_loop fuel kept rest = some out) := by
  refine ⟨?_, ?_, ?_⟩
  · obtain ⟨out, hloop, hrem⟩ := remove_tags_loop_sound (txt.length + 1) [] txt (by omega)
    have hsub := removes_sublist txt out hrem
    exact ⟨out, by simpa [subrip_remove_unhandled_tags] using hloop, hsub, hsub.length_le⟩
  · intro kept rest kept1 rest1 hstep
    cases rest with
    | nil => simp [remove_tags_step] at hstep
    | cons c tl =>
      cases hr : remove_at (c :: tl) with
      | none =>
        simp [remove_tags_step, hr] at hstep
        obtain ⟨h1, h2⟩ := hstep
        subst h1; subst h2
        exact Or.inl ⟨by simp, by simp⟩
      | some r1 =>
        simp [remove_tags_step, hr] at hstep
        obtain ⟨h1, h2⟩ := hstep
        subst h1; subst h2
        obtain ⟨mid, hs⟩ := remove_at_some _ _ hr
        have hshort := remove_at_length _ _ hr
        refine Or.inr ⟨rfl, by simp only [List.length_append]; omega,
          lt_entity ++ mid ++ gt_entity, by simp [lt_entity], by rw [hs]⟩
  · intro fuel kept rest hlen
    obtain ⟨out, hloop, _⟩ := remove_tags_loop_sound fuel kept rest hlen
    exact ⟨_, hloop⟩

/-! ### Escaped tags in the output -/

/-- An ASCII letter. -/
def ascii_letter (c : Char) : Prop :=
  ('a' ≤ c ∧ c ≤ 'z') ∨ ('A' ≤ c ∧ c ≤ 'Z')

instance (c : Char) : Decidable (ascii_letter c) := by
  unfold ascii_letter; infer_instance

/-- The text has an occurrence of `&gt;`. -/
def contains_gt (s : List Char) : Prop :=
  ∃ a b, s = a ++ gt_entity ++ b

/-- The text begins with an escaped tag: `&lt;`, then optionally `/`, then an ASCII
letter, and an occurrence of `&gt;` after that. -/
def escaped_tag_at (s : List Char) : Prop :=
  ∃ (slash : List Char) (c : Char) (t : List Char),
    (slash = [] ∨ slash = ['/']) ∧ ascii_letter c ∧
      s = lt_entity ++ slash ++ [c] ++ t ∧ contains_gt t

/-- The text has an occurrence of an escaped tag. -/
def has_escaped_tag (s : List Char) : Prop :=
  ∃ a b, s = a ++ b ∧ escaped_tag_at b

/-- The beginnings of `&lt;/` that are shorter than the opening of an escaped tag: `&`,
`&l`, `&lt`, `&lt;` and `&lt;/`. -/
def split_openers : List (List Char) :=
  [['&'], ['&', 'l'], ['&', 'l', 't'], ['&', 'l', 't', ';'], ['&', 'l', 't', ';', '/']]

/-- The text begins with one of the `split_openers` directly followed by a tag that
`remove_at` removes. -/
def tag_after_split_opener_at (q : List Char) : Bool :=
  split_openers.any
    (fun p => decide (q.take p.length = p) && (remove_at (q.drop p.length)).isSome)

/-- At no place of the text is one of the `split_openers` directly followed by a tag
that `remove_at` removes. -/
def no_tag_after_split_opener : List Char → Bool
  | [] => true
  | c :: tl => !tag_after_split_opener_at (c :: tl) && no_tag_after_split_opener tl

theorem char_le_iff (a b : Char) : a ≤ b ↔ a.toNat ≤ b.toNat := by
  rw [Char.le_def]
  exact UInt32.le_def

theorem is_ascii_letter_iff (c : Char) : is_ascii_letter c = true ↔ ascii_letter c := by
  simp only [is_ascii_letter, ascii_letter, Char.toLower, decide_eq_true_eq, char_le_iff]
  have ha : 'a'.toNat = 97 := rfl
  have hz : 'z'.toNat = 122 := rfl
  have hA : 'A'.toNat = 65 := rfl
  have hZ : 'Z'.toNat = 90 := rfl
  by_cases h : c.toNat ≥ 65 ∧ c.toNat ≤ 90
  · have hv : (Char.ofNat (c.toNat + 32)).toNat = c.toNat + 32 := by
      obtain ⟨h1, h2⟩ := h
      generalize c.toNat = n at h1 h2
      interval_cases n <;> rfl
    simp only [h, and_self, if_true, hv]
    omega
  · simp only [h, if_false]
    omega

theorem ascii_letter_ne_slash (c : Char) (h : ascii_letter c) : c ≠ '/' := by
  intro hc
  subst hc
  revert h
  decide

theorem strstr_gt_of_contains (u : List Char) (h : contains_gt u) :
    ∃ k, strstr_gt u = some k := by
  obtain ⟨a, b, hab⟩ := h
  subst hab
  induction a with
  | nil => exact ⟨0, by simp [strstr_gt, gt_entity]⟩
  | cons c a ih =>
    obtain ⟨k, hk⟩ := ih
    have hcons : c :: a ++ gt_entity ++ b = c :: (a ++ gt_entity ++ b) := rfl
    rw [hcons]
    by_cases hc : (c :: (a ++ gt_entity ++ b)).take 4 = gt_entity
    · exact ⟨0, by rw [strstr_gt, if_pos hc]⟩
    · exact ⟨k + 1, by rw [strstr_gt, if_neg hc, hk]; rfl⟩

theorem contains_gt_append_left (p t : List Char) (h : contains_gt t) :
    contains_gt (p ++ t) := by
  obtain ⟨a, b, hab⟩ := h
  exact ⟨p ++ a, b, by simp [hab, List.append_assoc]⟩

theorem remove_at_of_escaped_tag (s : List Char) (h : escaped_tag_at s) :
    ∃ s1, remove_at s = some s1 := by
  obtain ⟨slash, c, t, hslash, hc, hs, hgt⟩ := h
  have hlt : starts_lt s = true := by
    rw [starts_lt_iff, hs]
    simp [lt_entity, List.append_assoc]
  have hdrop : s.drop 4 = slash ++ [c] ++ t := by
    rw [hs]; simp [lt_entity, List.append_assoc]
  obtain ⟨k, hk⟩ := strstr_gt_of_contains (s.drop 4) (by
    rw [hdrop]; exact contains_gt_append_left _ _ hgt)
  have hletter := (is_ascii_letter_iff c).2 hc
  have hne := ascii_letter_ne_slash c hc
  refine ⟨s.drop (4 + k + 4), ?_⟩
  unfold remove_at
  simp only [hlt, if_true, hk]
  unfold subrip_remove_unhandled_tag
  rw [hdrop]
  rcases hslash with h0 | h1
  · subst h0
    simp [hne, hletter]
  · subst h1
    simp [hletter]

theorem remove_at_some_escaped (s s1 : List Char) (h : remove_at s = some s1) :
    escaped_tag_at s := by
  unfold remove_at at h
  by_cases hlt : starts_lt s = true
  · simp only [hlt, if_true] at h
    cases hgt : strstr_gt (s.drop 4) with
    | none => simp [hgt] at h
    | some k =>
      simp only [hgt] at h
      obtain ⟨a, b, hab, _⟩ := strstr_gt_some _ _ hgt
      have hs := (starts_lt_iff s).1 hlt
      unfold subrip_remove_unhandled_tag at h
      generalize s.drop 4 = u at h hab hs
      have hamp : ¬ ascii_letter '&' := by decide
      cases u with
      | nil => simp at h
      | cons u0 u1 =>
        by_cases hsl : u0 = '/'
        · subst hsl
          cases u1 with
          | nil => simp at h
          | cons x t =>
            simp only [List.head?_cons, if_true, List.drop_succ_cons, List.drop_zero] at h
            have hx : ascii_letter x := by
              rw [← is_ascii_letter_iff]
              by_contra hx
              simp [hx] at h
            cases a with
            | nil => simp [gt_entity] at hab
            | cons a0 a1 =>
              cases a1 with
              | nil =>
                simp [gt_entity] at hab
                rw [hab.2.1] at hx
                exact absurd hx hamp
              | cons a2 a3 =>
                simp only [List.cons_append, List.cons.injEq] at hab
                refine ⟨['/'], x, t, Or.inr rfl, hx, ?_, a3, b, hab.2.2⟩
                rw [hs]
                simp [List.append_assoc]
        · simp only [List.head?_cons, Option.some.injEq, hsl, if_false] at h
          have hx : ascii_letter u0 := by
            rw [← is_ascii_letter_iff]
            by_contra hx
            simp [hx] at h
          cases a with
          | nil =>
            simp [gt_entity] at hab
            rw [hab.1] at hx
            exact absurd hx hamp
          | cons a0 a1 =>
            simp only [List.cons_append, List.cons.injEq] at hab
            refine ⟨[], u0, u1, Or.inl rfl, hx, ?_, a1, b, hab.2⟩
            rw [hs]
            simp [List.append_assoc]
  · have hf : starts_lt s = false := by simpa using hlt
    simp [hf] at h

theorem removes_first_junction (s o : List Char) (h : Removes s o) :
    o = s ∨ ∃ a tag s1 o2, s = a ++ tag ∧ remove_at tag = some s1 ∧ o = a ++ o2 := by
  induction h with
  | done => exact Or.inl rfl
  | keep c tl out _ _ ih =>
    rcases ih with h | ⟨a, tag, s1, o2, hs, htag, ho⟩
    · exact Or.inl (by rw [h])
    · exact Or.inr ⟨c :: a, tag, s1, o2, by rw [hs]; rfl, htag, by rw [ho]; rfl⟩
  | drop rest rest1 out hr _ _ =>
    exact Or.inr ⟨[], rest, rest1, out, rfl, hr, rfl⟩

theorem contains_gt_of_remove_at (p tag s1 : List Char) (h : remove_at tag = some s1) :
    contains_gt (p ++ tag) := by
  obtain ⟨mid, hs⟩ := remove_at_some tag s1 h
  exact ⟨p ++ lt_entity ++ mid, s1, by rw [hs]; simp [List.append_assoc]⟩

theorem kept_char_joined (c : Char) (tl out : List Char)
    (hrem : Removes tl out) (hnone : remove_at (c :: tl) = none)
    (hesc : escaped_tag_at (c :: out)) :
    ∃ p tag : List Char, p ∈ split_openers ∧ escaped_tag_at tag ∧
      c :: tl = p ++ tag ∧ (c :: out).take p.length = p := by
  have hno : ∀ s, s = c :: tl → ¬ escaped_tag_at s := by
    intro s hs h
    obtain ⟨s1, h1⟩ := remove_at_of_escaped_tag s h
    rw [hs, hnone] at h1
    cases h1
  rcases removes_first_junction tl out hrem with h | ⟨a, tag, s1, o2, hs, htag, ho⟩
  · rw [h] at hesc
    exact absurd hesc (hno _ rfl)
  · have htagesc := remove_at_some_escaped tag s1 htag
    obtain ⟨slash, x, t, hslash, hx, heq, hgt⟩ := hesc
    subst hs
    subst ho
    rcases hslash with h0 | h1
    · subst h0
      rcases a with _ | ⟨a1, _ | ⟨a2, _ | ⟨a3, _ | ⟨a4, a5⟩⟩⟩⟩
      · simp [lt_entity] at heq
        exact ⟨['&'], tag, by simp [split_openers], htagesc, by simp [heq.1], by simp [heq.1]⟩
      · simp [lt_entity] at heq
        exact ⟨['&', 'l'], tag, by simp [split_openers], htagesc,
          by simp [heq.1, heq.2.1], by simp [heq.1, heq.2.1]⟩
      · simp [lt_entity] at heq
        exact ⟨['&', 'l', 't'], tag, by simp [split_openers], htagesc,
          by simp [heq.1, heq.2.1, heq.2.2.1], by simp [heq.1, heq.2.1, heq.2.2.1]⟩
      · simp [lt_entity] at heq
        exact ⟨['&', 'l', 't', ';'], tag, by simp [split_openers], htagesc,
          by simp [heq.1, heq.2.1, heq.2.2.1, heq.2.2.2.1],
          by simp [heq.1, heq.2.1, heq.2.2.1, heq.2.2.2.1]⟩
      · simp [lt_entity] at heq
        obtain ⟨e0, e1, e2, e3, e4, _⟩ := heq
        refine absurd ⟨[], x, a5 ++ tag, Or.inl rfl, hx, ?_,
          contains_gt_of_remove_at a5 tag s1 htag⟩ (hno _ rfl)
        simp [lt_entity, e0, e1, e2, e3, e4]
    · subst h1
      rcases a with _ | ⟨a1, _ | ⟨a2, _ | ⟨a3, _ | ⟨a4, _ | ⟨a5, a6⟩⟩⟩⟩⟩
      · simp [lt_entity] at heq
        exact ⟨['&'], tag, by simp [split_openers], htagesc, by simp [heq.1], by simp [heq.1]⟩
      · simp [lt_entity] at heq
        exact ⟨['&', 'l'], tag, by simp [split_openers], htagesc,
          by simp [heq.1, heq.2.1], by simp [heq.1, heq.2.1]⟩
      · simp [lt_entity] at heq
        exact ⟨['&', 'l', 't'], tag, by simp [split_openers], htagesc,
          by simp [heq.1, heq.2.1, heq.2.2.1], by simp [heq.1, heq.2.1, heq.2.2.1]⟩
      · simp [lt_entity] at heq
        exact ⟨['&', 'l', 't', ';'], tag, by simp [split_openers], htagesc,
          by simp [heq.1, heq.2.1, heq.2.2.1, heq.2.2.2.1],
          by simp [heq.1, heq.2.1, heq.2.2.1, heq.2.2.2.1]⟩
      · simp [lt_entity] at heq
        exact ⟨['&', 'l', 't', ';', '/'], tag, by simp [split_openers], htagesc,
          by simp [heq.1, heq.2.1, heq.2.2.1, heq.2.2.2.1, heq.2.2.2.2.1],
          by simp [heq.1, heq.2.1, heq.2.2.1, heq.2.2.2.1, heq.2.2.2.2.1]⟩
      · simp [lt_entity] at heq
        obtain ⟨e0, e1, e2, e3, e4, e5, _⟩ := heq
        refine absurd ⟨['/'], x, a6 ++ tag, Or.inr rfl, hx, ?_,
          contains_gt_of_remove_at a6 tag s1 htag⟩ (hno _ rfl)
        simp [lt_entity, e0, e1, e2, e3, e4, e5]

theorem removes_joined (rest out : List Char) (h : Removes rest out) :
    ∀ a b : List Char, out = a ++ b → escaped_tag_at b →
      ∃ pre p tag : List Char, p ∈ split_openers ∧ escaped_tag_at tag ∧
        rest = pre ++ p ++ tag ∧ b.take p.length = p := by
  induction h with
  | done =>
    rintro a b hab ⟨slash, c, t, _, _, hb, _⟩
    have := congrArg List.length hab
    rw [hb] at this
    simp [lt_entity] at this
    omega
  | keep c tl out hnone hrem ih =>
    intro a b hab hb
    cases a with
    | nil =>
      simp only [List.nil_append] at hab
      rw [← hab] at hb
      obtain ⟨p, tag, hp, htag, hsplit, htake⟩ := kept_char_joined c tl out hrem hnone hb
      exact ⟨[], p, tag, hp, htag, by simpa using hsplit, by rw [← hab]; exact htake⟩
    | cons a0 a1 =>
      simp only [List.cons_append, List.cons.injEq] at hab
      obtain ⟨pre, p, tag, hp, htag, hsplit, htake⟩ := ih a1 b hab.2 hb
      exact ⟨c :: pre, p, tag, hp, htag, by rw [hsplit]; rfl, htake⟩
  | drop rest rest1 out hr _ ih =>
    intro a b hab hb
    obtain ⟨mid, hs⟩ := remove_at_some rest rest1 hr
    obtain ⟨pre, p, tag, hp, htag, hsplit, htake⟩ := ih a b hab hb
    exact ⟨lt_entity ++ mid ++ gt_entity ++ pre, p, tag, hp, htag,
      by rw [hs, hsplit]; simp [List.append_assoc], htake⟩

theorem no_tag_after_split_opener_suffix (p q : List Char)
    (h : no_tag_after_split_opener (p ++ q) = true) : no_tag_after_split_opener q = true := by
  induction p with
  | nil => exact h
  | cons c p ih =>
    simp only [List.cons_append, no_tag_after_split_opener, Bool.and_eq_true] at h
    exact ih h.2

theorem no_tag_after_split_opener_spec (txt : List Char)
    (h : no_tag_after_split_opener txt = true) (pre p tag : List Char)
    (hp : p ∈ split_openers) (htag : escaped_tag_at tag) : txt ≠ pre ++ p ++ tag := by
  intro heq
  rw [heq, List.append_assoc] at h
  have hq := no_tag_after_split_opener_suffix pre (p ++ tag) h
  obtain ⟨s1, hs1⟩ := remove_at_of_escaped_tag tag htag
  have hat : tag_after_split_opener_at (p ++ tag) = true := by
    unfold tag_after_split_opener_at
    rw [List.any_eq_true]
    exact ⟨p, hp, by simp [hs1]⟩
  cases hpt : p ++ tag with
  | nil =>
    have hpnil : p = [] := (List.append_eq_nil.1 hpt).1
    rw [hpnil] at hp
    simp [split_openers] at hp
  | cons c tl =>
    rw [hpt] at hq hat
    simp only [no_tag_after_split_opener, Bool.and_eq_true, Bool.not_eq_true'] at hq
    rw [hat] at hq
    exact Bool.noConfusion hq.1

/-- The NUL character that terminates a C string. -/
def nul : Char := Char.ofNat 0

/-- The C string that starts at index `i` of the buffer: the characters up to the
first NUL; no result when there is no NUL from `i` on. -/
def c_string_at (buf : List Char) (i : Nat) : Option (List Char) :=
  if (buf.drop i).contains nul then some ((buf.drop i).takeWhile (fun c => c != nul))
  else none

/-- The call `strchr (s, ch)` on a C string: the offset of the first `ch`, if any. -/
def strchr : List Char → Char → Option Nat
  | [], _ => none
  | c :: tl, ch => if c = ch then some 0 else (strchr tl ch).map (fun k => k + 1)

/-- The character class `[a-zA-Z0-9\. \t\(\)]` of `ATTRIBUTE_REGEX`. -/
def attribute_class (c : Char) : Bool :=
  c.isAlphanum || c = '.' || c = ' ' || c = '\t' || c = '(' || c = ')'

/-- The class `\s` of the regular expression: space, tab, newline, vertical tab,
form feed, carriage return. -/
def regex_space (c : Char) : Bool :=
  c = ' ' || c = '\t' || c = '\n' || c = Char.ofNat 11 || c = Char.ofNat 12 || c = '\r'

/-- A match of the regular expression `<` tag `\s?[a-zA-Z0-9\. \t\(\)]*>` that starts
at offset 0 of `s` (the case `start_pos == 0`): the length of the matched text.
After `<` and the tag come at most one `\s` character, a run of class
characters, which ends where the class ends because `>` is not in the class,
and `>`. -/
def tag_regex_match (tag s : List Char) : Option Nat :=
  match s with
  | [] => none
  | c0 :: r0 =>
      if c0 = '<' ∧ r0.take tag.length = tag then
        let r := r0.drop tag.length
        let skip : Nat :=
          match r.head? with
          | some c => if !attribute_class c && regex_space c then 1 else 0
          | none => 0
        let w := ((r.drop skip).takeWhile attribute_class).length
        if (r.drop (skip + w)).head? = some '>' then some (1 + tag.length + skip + w + 1)
        else none
      else none

/-- The inner `while` loop over the allowed tags: the first tag of the list whose
regular expression matches at `next_tag`, with `offset`, the length of the
match. -/
def find_open_tag : List (List Char) → List Char → Option (Nat × List Char)
  | [], _ => none
  | tag :: tags, s =>
      match tag_regex_match tag s with
      | some offset => some (offset, tag)
      | none => find_open_tag tags s

/-- GLib `g_ascii_strncasecmp (s1, s2, n) == 0` on two C strings: up to `n`
characters are compared after ASCII lowercasing; when a string ends before
that, the result is zero only when both end. -/
def ascii_strncasecmp_zero : List Char → List Char → Nat → Bool
  | _, _, 0 => true
  | c1 :: t1, c2 :: t2, n + 1 =>
      if c1.toLower = c2.toLower then ascii_strncasecmp_zero t1 t2 n else false
  | [], [], _ + 1 => true
  | _, _, _ + 1 => false

/-- The call `memmove (dst, src, n)` with `dst` and `src` as indices of the buffer; no
result when a read or a write leaves the buffer. -/
def memmove (buf : List Char) (dst src n : Nat) : Option (List Char) :=
  if src + n ≤ buf.length ∧ dst + n ≤ buf.length then
    some (buf.take dst ++ (buf.drop src).take n ++ buf.drop (dst + n))
  else none

/-- The `while (*cur != '\0')` loop of `markup_utils_fix_up_markup`, for at most `fuel`
iterations, on the buffer, the index `cur` and the array of open tags (last
opened last): the buffer and the open tags at the exit. -/
def fix_up_loop (allowed : List (List Char)) :
    Nat → List Char → Nat → List (List Char) → Option (List Char × List (List Char))
  | 0, _, _, _ => none
  | fuel + 1, buf, cur, open_tags =>
      match c_string_at buf cur with
      | none => none
      | some s =>
        if s = [] then some (buf, open_tags)
        else
          match strchr s '<' with
          | none => some (buf, open_tags)
          | some off =>
            let next_tag := cur + off
            match find_open_tag allowed (s.drop off) with
            | some (offset, tag) =>
                -- g_ptr_array_add (open_tags, g_ascii_strdown (iter_tag, -1)); continue
                fix_up_loop allowed fuel buf (next_tag + offset)
                  (open_tags ++ [tag.map Char.toLower])
            | none =>
              if (s.drop (off + 1)).head? = some '/' then
                -- end_tag = strchr (cur, '>')
                match strchr s '>' with
                | none => fix_up_loop allowed fuel buf (next_tag + 1) open_tags
                | some eoff =>
                  let end_tag := cur + eoff
                  let is_open : Option Bool :=
                    match open_tags.getLast? with
                    | none => some false
                    | some last =>
                        -- g_ascii_strncasecmp (end_tag - 1, last, strlen (last)) == 0
                        if end_tag = 0 then none
                        else (c_string_at buf (end_tag - 1)).map
                          (fun s1 => ascii_strncasecmp_zero s1 last last.length)
                  match is_open with
                  | none => none
                  | some true =>
                      fix_up_loop allowed fuel buf (next_tag + 1) open_tags.dropLast
                  | some false =>
                    -- memmove (next_tag, end_tag + 1, strlen (end_tag) + 1);
                    -- next_tag -= strlen (end_tag); ++next_tag
                    match memmove buf next_tag (end_tag + 1) ((s.drop eoff).length + 1) with
                    | none => none
                    | some buf1 =>
                      match c_string_at buf1 end_tag with
                      | none => none
                      | some s2 =>
                        if next_tag + 1 < s2.length then none
                        else fix_up_loop allowed fuel buf1 (next_tag + 1 - s2.length) open_tags
              else fix_up_loop allowed fuel buf (next_tag + 1) open_tags

/-- The closing tags that the end of `markup_utils_fix_up_markup` appends: `</tag>` for
every open tag, the last opened first. -/
def closing_tags (open_tags : List (List Char)) : List Char :=
  (open_tags.reverse.map (fun tag => ['<', '/'] ++ tag ++ ['>'])).flatten

/-- The function `markup_utils_fix_up_markup` on the buffer behind `*p_txt`: the string
`*p_txt` at the return, after the loop (with `fuel` iterations at most) and the
appending of the missing closing tags. -/
def markup_utils_fix_up_markup (allowed : List (List Char)) (fuel : Nat) (buf : List Char) :
    Option (List Char) :=
  match fix_up_loop allowed fuel buf 0 [] with
  | none => none
  | some (buf1, open_tags) =>
    match c_string_at buf1 0 with
    | none => none
    | some s => some (s ++ closing_tags open_tags)

/-- The array `allowed_vtt_tags`. -/
def allowed_vtt_tags : List (List Char) :=
  [['i'], ['b'], ['c'], ['u'], ['v'], ['r', 'u', 'b', 'y'], ['r', 't']]

/-- The array `allowed_srt_tags`. -/
def allowed_srt_tags : List (List Char) :=
  [['i'], ['b'], ['u']]

/-- The buffer after `strcpy (txt, res)` in `markup_utils_unescape_formatting`: the buffer
held the string `txt` and its NUL, and `res` (not longer than `txt`) and its
NUL are written over the beginning; the bytes behind stay. -/
def strcpy_over (txt res : List Char) : List Char :=
  res ++ [nul] ++ (txt ++ [nul]).drop (res.length + 1)

/-- C28, evaluated: on the buffer in which `&lt;ruby&gt;x&lt;/ruby&gt;y` was unescaped to
`<ruby>x</ruby>y`, `markup_utils_fix_up_markup` with the WebVTT tags returns
`<ruby>xy</ruby>`: the closing tag of the open tag `ruby` is removed as not
open and appended at the end. The same text with the one-letter tag `i` comes
back unchanged. The properly nested `<i><b>x</b></i>` comes back as
`<i><b>x</i>`. (64 iterations are allowed; the loops exit after 3, 3 and 7.) -/
theorem fix_up_markup_moves_ruby_closing_tag :
    markup_utils_fix_up_markup allowed_vtt_tags 64
        (strcpy_over "&lt;ruby&gt;x&lt;/ruby&gt;y".data "<ruby>x</ruby>y".data)
      = some "<ruby>xy</ruby>".data ∧
    markup_utils_fix_up_markup allowed_vtt_tags 64
        (strcpy_over "&lt;i&gt;x&lt;/i&gt;y".data "<i>x</i>y".data)
      = some "<i>x</i>y".data ∧
    markup_utils_fix_up_markup allowed_vtt_tags 64
        (strcpy_over "&lt;i&gt;&lt;b&gt;x&lt;/b&gt;&lt;/i&gt;".data "<i><b>x</b></i>".data)
      = some "<i><b>x</i>".data := by
  decide

end GstMarkup
